import Mathlib

/-
Verification of the WhatsApp transcript parser (`parseWhatsAppChat` and its
helpers) from the repository source.  The parser is embedded shallowly:

* the four header regexes are transcribed into a small regular-expression
  AST (`RE`) together with a backtracking matcher (`reMatch`) that mirrors
  JavaScript regex semantics (greedy quantifiers with backtracking, capture
  groups recording the consumed span, case-insensitive AM/PM letters,
  `$` as an end-of-input anchor);
* the single-pass line scanner is a left fold (`stepP`) over the lines of
  the input, with the in-progress message, the emitted message list and the
  participant insertion-order set as explicit state;
* aggregate derivation (participants sorted lexicographically, message
  count, date range with the "N/A" sentinel) follows the source verbatim.
-/

namespace WA

/-! ### Character classes (JavaScript semantics) -/

/-- The characters matched by `\s` in a JavaScript regex, which is also the
set stripped by `String.prototype.trim`. -/
def wsChars : List Char :=
  ['\x20', '\t', '\n', '\x0b', '\x0c', '\r', '\u00A0', '\u1680', '\u2000', '\u2001', '\u2002', '\u2003', '\u2004', '\u2005', '\u2006', '\u2007', '\u2008', '\u2009', '\u200A', '\u2028', '\u2029', '\u202F', '\u205F', '\u3000', '\uFEFF']

/-- JavaScript whitespace (`\s`, and the set removed by `trim`). -/
def jsWs (c : Char) : Bool := wsChars.contains c

/-- JavaScript line terminators: the characters `.` does not match. -/
def termChars : List Char := ['\n', '\r', '\u2028', '\u2029']

/-- The `.` character class of a JavaScript regex without the `s` flag. -/
def dotC (c : Char) : Bool := !(termChars.contains c)

/-- The `\d` character class. -/
def digitC (c : Char) : Bool := c.isDigit

/-- The `[^:]` character class. -/
def colonFree (c : Char) : Bool := c != ':'

/-- The `[AP]` class under the `i` flag. -/
def apC (c : Char) : Bool := c == 'A' || c == 'P' || c == 'a' || c == 'p'

/-- The literal `M` under the `i` flag. -/
def emC (c : Char) : Bool := c == 'M' || c == 'm'

/-- `String.prototype.trim` on a list of characters. -/
def jsTrim (l : List Char) : List Char :=
  ((l.dropWhile jsWs).reverse.dropWhile jsWs).reverse

/-- `text.split('\n')` on a list of characters: the source feeds the raw
input through `text.split('\n')` before scanning. -/
def splitNl : List Char → List (List Char)
  | [] => [[]]
  | c :: t =>
    if c = '\n' then [] :: splitNl t
    else
      match splitNl t with
      | [] => [[c]]
      | h :: r => (c :: h) :: r

/-- Pack a list of characters back into a `String`. -/
def chStr (l : List Char) : String := ⟨l⟩

/-! ### A small regex AST and backtracking matcher -/

/-- Regular-expression AST covering the constructs used by the four header
patterns: single-character classes, concatenation, greedy star / bounded
repetition of a character class, greedy option, and capture groups. -/
inductive RE where
  | cls (p : Char → Bool)
  | seq (a b : RE)
  | star (p : Char → Bool)
  | rep (p : Char → Bool) (lo hi : Nat)
  | opt (a : RE)
  | group (a : RE)

/-- `descFrom hi lo` is `[hi, hi-1, …, lo]` (empty when `hi < lo`): the
candidate lengths a greedy quantifier tries, longest first. -/
def descFrom : Nat → Nat → List Nat
  | 0, lo => if lo = 0 then [0] else []
  | n + 1, lo => if n + 1 < lo then [] else (n + 1) :: descFrom n lo

/-- Length of the maximal run of characters satisfying `p` at the front. -/
def runLen (p : Char → Bool) : List Char → Nat
  | [] => 0
  | c :: t => if p c then runLen p t + 1 else 0

/-- Continuations for the matcher: remaining input and captures so far. -/
abbrev Cont := List Char → List (List Char) → Option (List (List Char))

/-- Backtracking matcher in continuation-passing style.  Greedy quantifiers
try the longest run first and backtrack one character at a time, exactly as
a JavaScript regex engine does; a capture group appends the span it
consumed to the capture list. -/
def reMatch : RE → List Char → List (List Char) → Cont → Option (List (List Char))
  | .cls p, s, caps, k =>
    match s with
    | [] => none
    | c :: t => if p c then k t caps else none
  | .seq a b, s, caps, k => reMatch a s caps (fun u c => reMatch b u c k)
  | .star p, s, caps, k =>
    (descFrom (runLen p s) 0).findSome? (fun n => k (s.drop n) caps)
  | .rep p lo hi, s, caps, k =>
    (descFrom (min (runLen p s) hi) lo).findSome? (fun n => k (s.drop n) caps)
  | .opt a, s, caps, k => (reMatch a s caps k) <|> (k s caps)
  | .group a, s, caps, k =>
    reMatch a s caps (fun u c => k u (c ++ [s.take (s.length - u.length)]))

/-- `line.match(re)` for a pattern anchored as `^…$`: match from the start
of the line and require the end anchor to sit at the end of input; on
success return the captured groups in order. -/
def reCaptures (r : RE) (s : List Char) : Option (List (List Char)) :=
  reMatch r s [] (fun rest caps => if rest.isEmpty then some caps else none)

/-! ### The four header patterns of the source -/

/-- A literal character as a (case-sensitive) single-character class. -/
def lit (c : Char) : RE := .cls (fun d => d == c)

/-- `(?:\s*[AP]M)` under the `i` flag. -/
def apmRE : RE := .seq (.star jsWs) (.seq (.cls apC) (.cls emC))

/-- `([^:]+):\s*(.*)` — the sender and message tail shared by all four
patterns (`+` rendered as one mandatory character followed by a star). -/
def senderRestRE : RE :=
  .seq (.group (.seq (.cls colonFree) (.star colonFree)))
    (.seq (lit ':') (.seq (.star jsWs) (.group (.star dotC))))

/-- `\s*-\s*` followed by the sender/message tail. -/
def dashTailRE : RE :=
  .seq (.star jsWs) (.seq (lit '-') (.seq (.star jsWs) senderRestRE))

/-- `\d{1,2}\/\d{1,2}\/\d{2,yhi}` — the date body of every pattern. -/
def dmyRE (yhi : Nat) : RE :=
  .seq (.rep digitC 1 2)
    (.seq (lit '/') (.seq (.rep digitC 1 2) (.seq (lit '/') (.rep digitC 2 yhi))))

/-- `\d{1,2}:\d{2}` followed by a pattern-specific tail. -/
def timeBaseRE (tail : RE) : RE :=
  .seq (.rep digitC 1 2) (.seq (lit ':') (.seq (.rep digitC 2 2) tail))

/-- `(\d{1,2}:\d{2}(?:\s*[AP]M)?)` body — patterns 2 and 3. -/
def tm2RE : RE := timeBaseRE (.opt apmRE)

/-- `(\d{1,2}:\d{2}\s*[AP]M)` body — pattern 4. -/
def tm4RE : RE := timeBaseRE apmRE

/-- `(\d{1,2}:\d{2}(?::\d{2})?(?:\s*[AP]M)?)` body — pattern 1. -/
def tm1RE : RE :=
  timeBaseRE (.seq (.opt (.seq (lit ':') (.rep digitC 2 2))) (.opt apmRE))

/-- The common shape of patterns 2–4:
`^(date),\s*(time)\s*-\s*([^:]+):\s*(.*)$`. -/
def dashRE (yhi : Nat) (tm : RE) : RE :=
  .seq (.group (dmyRE yhi))
    (.seq (lit ',') (.seq (.star jsWs) (.seq (.group tm) dashTailRE)))

/-- Pattern 1: `^\[(\d{1,2}\/\d{1,2}\/\d{2,4}),\s*(\d{1,2}:\d{2}(?::\d{2})?(?:\s*[AP]M)?)\]\s*([^:]+):\s*(.*)$`. -/
def pat1 : RE :=
  .seq (lit '[')
    (.seq (.group (dmyRE 4))
      (.seq (lit ',')
        (.seq (.star jsWs)
          (.seq (.group tm1RE) (.seq (lit ']') (.seq (.star jsWs) senderRestRE))))))

/-- Pattern 2: `^(\d{1,2}\/\d{1,2}\/\d{2,4}),\s*(\d{1,2}:\d{2}(?:\s*[AP]M)?)\s*-\s*([^:]+):\s*(.*)$`. -/
def pat2 : RE := dashRE 4 tm2RE

/-- Pattern 3: `^(\d{1,2}\/\d{1,2}\/\d{2}),\s*(\d{1,2}:\d{2}(?:\s*[AP]M)?)\s*-\s*([^:]+):\s*(.*)$`. -/
def pat3 : RE := dashRE 2 tm2RE

/-- Pattern 4: `^(\d{1,2}\/\d{1,2}\/\d{2}),\s*(\d{1,2}:\d{2}\s*[AP]M)\s*-\s*([^:]+):\s*(.*)$`. -/
def pat4 : RE := dashRE 2 tm4RE

/-- The `patterns` array of the source, in its priority order. -/
def patterns : List RE := [pat1, pat2, pat3, pat4]

/-! ### Data model -/

/-- The `Message` interface of the source, field for field. -/
structure Message where
  timestamp : String
  sender : String
  message : String
  date : String
  time : String
deriving DecidableEq

/-- The `dateRange` record of `ParsedData`. -/
structure DateRange where
  start : String
  «end» : String
deriving DecidableEq

/-- The `ParsedData` interface of the source, field for field. -/
structure ParsedData where
  groupName : String
  messages : List Message
  participants : List String
  messageCount : Nat
  dateRange : DateRange
deriving DecidableEq

/-! ### The line scanner -/

/-- Try the patterns in priority order (`for pattern of patterns … break`)
and destructure the first match as `[, date, time, sender, message]`. -/
def headerMatchP (pats : List RE) (line : List Char) :
    Option (List Char × List Char × List Char × List Char) :=
  match pats.findSome? (fun p => reCaptures p line) with
  | some [d, t, sd, ms] => some (d, t, sd, ms)
  | _ => none

/-- `headerMatchP` over the source's four patterns. -/
def headerMatch (line : List Char) :
    Option (List Char × List Char × List Char × List Char) :=
  headerMatchP patterns line

/-- The fresh `currentMessage` built from a matched header line:
`{timestamp: date + ", " + time, date, time, sender: sender.trim(),
message: message.trim()}`. -/
def mkMsg (d t sd ms : List Char) : Message :=
  { timestamp := chStr d ++ ", " ++ chStr t
    sender := chStr (jsTrim sd)
    message := chStr (jsTrim ms)
    date := chStr d
    time := chStr t }

/-- `currentMessage.message += '\n' + line` on a continuation line. -/
def contMsg (m : Message) (line : List Char) : Message :=
  { m with message := m.message ++ "\n" ++ chStr line }

/-- JavaScript `Set.prototype.add`: keep insertion order, drop duplicates. -/
def insertPart (l : List String) (s : String) : List String :=
  if s ∈ l then l else l ++ [s]

/-- Loop state: the in-progress `currentMessage`, the `messages` array and
the `participantsSet` (in insertion order). -/
structure PState where
  cur : Option Message
  msgs : List Message
  parts : List String
deriving DecidableEq

/-- One iteration of the `for (const line of lines)` loop: skip blank
lines, flush the current message and start a new one on a header match,
extend the current message on any other line. -/
def stepP (pats : List RE) (st : PState) (line : List Char) : PState :=
  if jsTrim line = [] then st
  else
    match headerMatchP pats line with
    | some (d, t, sd, ms) =>
      { cur := some (mkMsg d t sd ms)
        msgs := st.msgs ++ st.cur.toList
        parts := insertPart st.parts (chStr (jsTrim sd)) }
    | none =>
      match st.cur with
      | some m => { st with cur := some (contMsg m line) }
      | none => st

/-- The loop over all four patterns. -/
def step : PState → List Char → PState := stepP patterns

/-- Run the loop from the empty state. -/
def runStateP (pats : List RE) (lines : List (List Char)) : PState :=
  lines.foldl (stepP pats) ⟨none, [], []⟩

/-- The emitted message sequence: the flushed messages followed by the
final `if (currentMessage) messages.push(currentMessage)`. -/
def emitted (st : PState) : List Message := st.msgs ++ st.cur.toList

/-! ### Lexicographic string order (JavaScript default sort) -/

/-- The UTF-16 code units of a character: JavaScript's default sort
comparator works on UTF-16 code-unit sequences. -/
def charUnits (c : Char) : List Nat :=
  if c.toNat < 65536 then [c.toNat]
  else [55296 + (c.toNat - 65536) / 1024, 56320 + (c.toNat - 65536) % 1024]

/-- The UTF-16 code units of a string. -/
def strUnits (s : String) : List Nat := (s.data.map charUnits).flatten

/-- Lexicographic comparison of unit sequences. -/
def leLex : List Nat → List Nat → Bool
  | [], _ => true
  | _ :: _, [] => false
  | a :: as, b :: bs => if a < b then true else if b < a then false else leLex as bs

/-- `a <= b` in the sense of JavaScript's default `Array.prototype.sort`
comparator on strings. -/
def strLe (a b : String) : Bool := leLex (strUnits a) (strUnits b)

/-! ### Aggregates and the top-level parse -/

/-- `m.date.split('/')` on a list of characters. -/
def splitSlash : List Char → List (List Char)
  | [] => [[]]
  | c :: t =>
    if c = '/' then [] :: splitSlash t
    else
      match splitSlash t with
      | [] => [[c]]
      | h :: r => (c :: h) :: r

/-- Numeric value of a digit string. -/
def digitsToNat (l : List Char) : Nat :=
  l.foldl (fun a c => a * 10 + (c.toNat - 48)) 0

/-- Modelled from the spec: the source decides date validity with
`new Date(m.date.split('/').reverse().join('-'))` — the `Date`
constructor's parsing is JavaScript runtime behaviour, not part of this
repository's source — and the spec reads the check as "parses into a
valid calendar date under the convention day/month/year".  This predicate
renders that reading: three `/`-separated nonempty numeric fields, month
1–12, day within the month's length. -/
def jsDateValid (s : String) : Bool :=
  match splitSlash s.data with
  | [d, m, y] =>
    (!d.isEmpty) && (!m.isEmpty) && (!y.isEmpty) &&
    d.all Char.isDigit && m.all Char.isDigit && y.all Char.isDigit &&
    (let dn := digitsToNat d
     let mn := digitsToNat m
     let yn := digitsToNat y
     let leap := yn % 4 = 0 && (yn % 100 != 0 || yn % 400 = 0)
     let dim := if mn = 2 then (if leap then 29 else 28)
                else if mn = 4 || mn = 6 || mn = 9 || mn = 11 then 30 else 31
     1 ≤ mn && mn ≤ 12 && 1 ≤ dn && dn ≤ dim)
  | _ => false

/-- `messages[messages.length - 1]`: the last element of `m0 :: rest`. -/
def lastD : List Message → Message → Message
  | [], d => d
  | a :: as, _ => lastD as a

/-- `parseWhatsAppChat` on a pre-split line list, parameterised by the
pattern list and the date-validity predicate: scan the lines, then return
`null` when no message was emitted, else the populated `ParsedData` —
`validDates.length > 0` gates both `dateRange` fields, which otherwise
report the raw date token of the first and last emitted message. -/
def parseLinesP (pats : List RE) (dv : String → Bool) (lines : List (List Char)) :
    Option ParsedData :=
  match emitted (runStateP pats lines) with
  | [] => none
  | m0 :: rest =>
    some
      { groupName := "Zero to One"
        messages := m0 :: rest
        participants :=
          List.insertionSort (fun a b => strLe a b = true) (runStateP pats lines).parts
        messageCount := (m0 :: rest).length
        dateRange :=
          { start :=
              if 0 < ((m0 :: rest).filter (fun m => dv m.date)).length then m0.date
              else "N/A"
            «end» :=
              if 0 < ((m0 :: rest).filter (fun m => dv m.date)).length then
                (lastD rest m0).date
              else "N/A" } }

/-- `parseWhatsAppChat(text)`: split on `'\n'` and scan with the four
patterns and the runtime date-validity check. -/
def parseChat (text : String) : Option ParsedData :=
  parseLinesP patterns jsDateValid (splitNl text.data)

/-! ### Matcher equations -/

theorem reMatch_cls_nil (p : Char → Bool) (caps : List (List Char)) (k : Cont) :
    reMatch (.cls p) [] caps k = none := rfl

theorem reMatch_cls_cons (p : Char → Bool) (c : Char) (t : List Char)
    (caps : List (List Char)) (k : Cont) :
    reMatch (.cls p) (c :: t) caps k = if p c then k t caps else none := rfl

theorem reMatch_seq (a b : RE) (s : List Char) (caps : List (List Char)) (k : Cont) :
    reMatch (.seq a b) s caps k = reMatch a s caps (fun u c => reMatch b u c k) := rfl

theorem reMatch_star (p : Char → Bool) (s : List Char) (caps : List (List Char)) (k : Cont) :
    reMatch (.star p) s caps k
      = (descFrom (runLen p s) 0).findSome? (fun n => k (s.drop n) caps) := rfl

theorem reMatch_rep (p : Char → Bool) (lo hi : Nat) (s : List Char)
    (caps : List (List Char)) (k : Cont) :
    reMatch (.rep p lo hi) s caps k
      = (descFrom (min (runLen p s) hi) lo).findSome? (fun n => k (s.drop n) caps) := rfl

theorem reMatch_opt (a : RE) (s : List Char) (caps : List (List Char)) (k : Cont) :
    reMatch (.opt a) s caps k = ((reMatch a s caps k) <|> (k s caps)) := rfl

theorem reMatch_group (a : RE) (s : List Char) (caps : List (List Char)) (k : Cont) :
    reMatch (.group a) s caps k
      = reMatch a s caps (fun u c => k u (c ++ [s.take (s.length - u.length)])) := rfl

/-! ### Deterministic behaviour of greedy quantifiers -/

theorem mem_descFrom {n hi lo : Nat} (h : n ∈ descFrom hi lo) : lo ≤ n ∧ n ≤ hi := by
  induction hi with
  | zero =>
    simp only [descFrom] at h
    split at h
    · simp_all
    · simp at h
  | succ m ih =>
    simp only [descFrom] at h
    split at h
    · simp at h
    · rcases List.mem_cons.mp h with h | h
      · omega
      · have := ih h; omega

theorem descFrom_nil {hi lo : Nat} (h : hi < lo) : descFrom hi lo = [] := by
  cases hi with
  | zero => simp only [descFrom]; rw [if_neg (by omega)]
  | succ m => simp only [descFrom]; rw [if_pos (by omega)]

theorem descFrom_cons {hi lo : Nat} (h : lo ≤ hi) :
    ∃ tl, descFrom hi lo = hi :: tl ∧ ∀ n ∈ tl, n < hi := by
  cases hi with
  | zero =>
    refine ⟨[], ?_, by simp⟩
    have : lo = 0 := by omega
    simp [descFrom, this]
  | succ m =>
    refine ⟨descFrom m lo, ?_, ?_⟩
    · simp only [descFrom]; rw [if_neg (by omega)]
    · intro n hn; have := mem_descFrom hn; omega

theorem findSome?_descFrom {α : Type} (f : Nat → Option α) (r hi lo : Nat)
    (hhi : hi ≤ r) (hf : ∀ n, n < r → f n = none) :
    (descFrom hi lo).findSome? f = if lo ≤ r ∧ r ≤ hi then f r else none := by
  by_cases hr : lo ≤ r ∧ r ≤ hi
  · have hr2 : r = hi := by omega
    subst hr2
    obtain ⟨tl, htl, hb⟩ := descFrom_cons hr.1
    rw [htl, List.findSome?_cons, if_pos hr]
    cases hfr : f r with
    | some v => rfl
    | none => exact List.findSome?_eq_none_iff.mpr (fun x hx => hf x (hb x hx))
  · rw [if_neg hr]
    rw [List.findSome?_eq_none_iff.mpr]
    intro x hx
    have := mem_descFrom hx
    exact hf x (by omega)

theorem runLen_head {p : Char → Bool} {s : List Char} {n : Nat}
    (h : n < runLen p s) : ∃ c t, s.drop n = c :: t ∧ p c = true := by
  induction s generalizing n with
  | nil => simp [runLen] at h
  | cons c t ih =>
    by_cases hc : p c
    · cases n with
      | zero => exact ⟨c, t, rfl, hc⟩
      | succ m =>
        simp only [runLen, hc, if_true] at h
        exact ih (by omega)
    · simp [runLen, hc] at h

/-- A greedy bounded repetition of a character class, followed by a
continuation that never succeeds on input whose head is still in the
class, consumes exactly the maximal run. -/
theorem reMatch_rep_det (p : Char → Bool) (lo hi : Nat) (s : List Char)
    (caps : List (List Char)) (k : Cont)
    (hk : ∀ ch t c, p ch = true → k (ch :: t) c = none) :
    reMatch (.rep p lo hi) s caps k
      = if lo ≤ runLen p s ∧ runLen p s ≤ hi then k (s.drop (runLen p s)) caps
        else none := by
  rw [reMatch_rep]
  rw [findSome?_descFrom (fun n => k (s.drop n) caps) (runLen p s) (min (runLen p s) hi) lo
    (by omega)]
  · by_cases hcond : lo ≤ runLen p s ∧ runLen p s ≤ hi
    · rw [if_pos ⟨hcond.1, by omega⟩, if_pos hcond]
    · rw [if_neg (by omega), if_neg hcond]
  · intro n hn
    obtain ⟨c, t, hdrop, hc⟩ := runLen_head hn
    rw [hdrop]
    exact hk c t caps hc

/-- Greedy star version of `reMatch_rep_det`. -/
theorem reMatch_star_det (p : Char → Bool) (s : List Char)
    (caps : List (List Char)) (k : Cont)
    (hk : ∀ ch t c, p ch = true → k (ch :: t) c = none) :
    reMatch (.star p) s caps k = k (s.drop (runLen p s)) caps := by
  rw [reMatch_star]
  rw [findSome?_descFrom (fun n => k (s.drop n) caps) (runLen p s) (runLen p s) 0
    (by omega)]
  · rw [if_pos ⟨by omega, by omega⟩]
  · intro n hn
    obtain ⟨c, t, hdrop, hc⟩ := runLen_head hn
    rw [hdrop]
    exact hk c t caps hc

/-- A repetition with a positive lower bound fails on input that does not
start with a class character. -/
theorem reMatch_rep_none (p : Char → Bool) (lo hi : Nat) (s : List Char)
    (caps : List (List Char)) (k : Cont) (h : min (runLen p s) hi < lo) :
    reMatch (.rep p lo hi) s caps k = none := by
  rw [reMatch_rep, descFrom_nil h]
  rfl

/-- Inversion for a single-character class at the head of a sequence. -/
theorem reMatch_cls_some {p : Char → Bool} {s : List Char}
    {caps : List (List Char)} {k : Cont} {res : List (List Char)}
    (h : reMatch (.cls p) s caps k = some res) :
    ∃ c t, s = c :: t ∧ p c = true ∧ k t caps = some res := by
  cases s with
  | nil => simp [reMatch_cls_nil] at h
  | cons c t =>
    rw [reMatch_cls_cons] at h
    by_cases hc : p c
    · exact ⟨c, t, rfl, hc, by rwa [if_pos hc] at h⟩
    · rw [if_neg hc] at h; cases h

/-- A sequence starting with a literal/class fails when the head character
is outside the class. -/
theorem reMatch_seq_cls_none {p : Char → Bool} (b : RE) {c : Char} (t : List Char)
    (caps : List (List Char)) (k : Cont) (h : p c = false) :
    reMatch (.seq (.cls p) b) (c :: t) caps k = none := by
  rw [reMatch_seq, reMatch_cls_cons, if_neg (by simp [h])]

theorem reMatch_seq_cls_nil (p : Char → Bool) (b : RE)
    (caps : List (List Char)) (k : Cont) :
    reMatch (.seq (.cls p) b) [] caps k = none := by
  rw [reMatch_seq, reMatch_cls_nil]

/-! ### Character-class facts -/

theorem beq_false_of_classes {p : Char → Bool} {c x : Char}
    (hc : p c = true) (hx : p x = false) : (c == x) = false := by
  by_cases h : c = x
  · subst h; rw [hc] at hx; cases hx
  · simp [h]

theorem jsWs_mem {c : Char} (h : jsWs c = true) : c ∈ wsChars := by
  simpa [jsWs] using h

theorem jsWs_not_digit {c : Char} (h : jsWs c = true) : digitC c = false := by
  have hm := jsWs_mem h
  have : ∀ x ∈ wsChars, digitC x = false := by decide
  exact this c hm

theorem digit_not_ws {c : Char} (h : digitC c = true) : jsWs c = false := by
  by_cases hw : jsWs c
  · rw [jsWs_not_digit hw] at h; cases h
  · simpa using hw

theorem jsWs_not_ap {c : Char} (h : jsWs c = true) : apC c = false := by
  have hm := jsWs_mem h
  have : ∀ x ∈ wsChars, apC x = false := by decide
  exact this c hm

theorem digit_not_ap {c : Char} (h : digitC c = true) : apC c = false := by
  by_cases hap : apC c
  · exfalso
    simp only [apC, Bool.or_eq_true, beq_iff_eq] at hap
    rcases hap with ((h1 | h1) | h1) | h1 <;> (subst h1; simp [digitC, Char.isDigit] at h)
  · simpa using hap

theorem jsWs_beq_dash {c : Char} (h : jsWs c = true) : (c == '-') = false :=
  beq_false_of_classes h (by decide)

theorem jsWs_beq_lbrack {c : Char} (h : jsWs c = true) : (c == '[') = false :=
  beq_false_of_classes h (by decide)

theorem digit_beq_slash {c : Char} (h : digitC c = true) : (c == '/') = false :=
  beq_false_of_classes h (by decide)

theorem digit_beq_comma {c : Char} (h : digitC c = true) : (c == ',') = false :=
  beq_false_of_classes h (by decide)

theorem digit_beq_colon {c : Char} (h : digitC c = true) : (c == ':') = false :=
  beq_false_of_classes h (by decide)

/-! ### Rejection lemmas: how each sub-pattern behaves off its alphabet -/

theorem runLen_cons_neg {p : Char → Bool} {c : Char} (t : List Char)
    (h : p c = false) : runLen p (c :: t) = 0 := by
  simp [runLen, h]

/-- `(?:\s*[AP]M)` cannot start at a digit. -/
theorem apm_reject_digit {ch : Char} (t : List Char) (caps : List (List Char))
    (k : Cont) (h : digitC ch = true) :
    reMatch apmRE (ch :: t) caps k = none := by
  rw [apmRE, reMatch_seq, reMatch_star, runLen_cons_neg t (digit_not_ws h)]
  show List.findSome? _ [0] = none
  rw [List.findSome?_cons]
  have : reMatch (.seq (.cls apC) (.cls emC)) ((ch :: t).drop 0) caps k = none := by
    exact reMatch_seq_cls_none _ _ _ _ (digit_not_ap h)
  rw [this]
  rfl

/-- `\s*-\s*([^:]+):\s*(.*)` cannot start at a digit. -/
theorem dashTail_reject_digit {ch : Char} (t : List Char) (caps : List (List Char))
    (k : Cont) (h : digitC ch = true) :
    reMatch dashTailRE (ch :: t) caps k = none := by
  rw [dashTailRE, reMatch_seq, reMatch_star, runLen_cons_neg t (digit_not_ws h)]
  show List.findSome? _ [0] = none
  rw [List.findSome?_cons]
  have : reMatch (.seq (lit '-') (.seq (.star jsWs) senderRestRE))
      ((ch :: t).drop 0) caps k = none := by
    exact reMatch_seq_cls_none _ _ _ _ (beq_false_of_classes h (by decide))
  rw [this]
  rfl

/-- A time pattern (`\d{1,2}:…`) cannot start at a whitespace character,
whatever its tail. -/
theorem timeBase_reject_ws (tail : RE) {ch : Char} (t : List Char)
    (caps : List (List Char)) (k : Cont) (h : jsWs ch = true) :
    reMatch (timeBaseRE tail) (ch :: t) caps k = none := by
  rw [timeBaseRE, reMatch_seq]
  exact reMatch_rep_none _ _ _ _ _ _ (by
    rw [runLen_cons_neg t (jsWs_not_digit h)]; omega)

/-! ### Sequence-level deterministic steps -/

theorem reMatch_seq_cls (p : Char → Bool) (B : RE) (c : Char) (t : List Char)
    (caps : List (List Char)) (K : Cont) :
    reMatch (.seq (.cls p) B) (c :: t) caps K
      = if p c then reMatch B t caps K else none := rfl

theorem reMatch_seq_lit_nil (x : Char) (B : RE) (caps : List (List Char)) (K : Cont) :
    reMatch (.seq (lit x) B) [] caps K = none :=
  reMatch_seq_cls_nil _ _ _ _

theorem reMatch_seq_lit (x : Char) (B : RE) (c : Char) (t : List Char)
    (caps : List (List Char)) (K : Cont) :
    reMatch (.seq (lit x) B) (c :: t) caps K
      = if c == x then reMatch B t caps K else none := rfl

theorem reMatch_seq_rep_det (p : Char → Bool) (lo hi : Nat) (B : RE) (s : List Char)
    (caps : List (List Char)) (K : Cont)
    (hB : ∀ ch t c, p ch = true → reMatch B (ch :: t) c K = none) :
    reMatch (.seq (.rep p lo hi) B) s caps K
      = if lo ≤ runLen p s ∧ runLen p s ≤ hi then
          reMatch B (s.drop (runLen p s)) caps K
        else none := by
  rw [reMatch_seq]
  exact reMatch_rep_det p lo hi s caps _ (fun ch t c hc => hB ch t c hc)

theorem reMatch_seq_star_det (p : Char → Bool) (B : RE) (s : List Char)
    (caps : List (List Char)) (K : Cont)
    (hB : ∀ ch t c, p ch = true → reMatch B (ch :: t) c K = none) :
    reMatch (.seq (.star p) B) s caps K
      = reMatch B (s.drop (runLen p s)) caps K := by
  rw [reMatch_seq]
  exact reMatch_star_det p s caps _ (fun ch t c hc => hB ch t c hc)

/-! ### Pattern subsumption (spec §4.1, overlap of the dash formats) -/

/-- `\s*-…` applied after a literal slash-continuation rejects digits. -/
theorem slash_reject (B : RE) (K : Cont) :
    ∀ ch t c, digitC ch = true → reMatch (.seq (lit ':') B) (ch :: t) c K = none :=
  fun ch t c hd => reMatch_seq_cls_none _ _ _ _ (digit_beq_colon hd)

theorem slash_reject' (B : RE) (K : Cont) :
    ∀ ch t c, digitC ch = true → reMatch (.seq (lit '/') B) (ch :: t) c K = none :=
  fun ch t c hd => reMatch_seq_cls_none _ _ _ _ (digit_beq_slash hd)

/-- If the stricter time body `(\d{1,2}:\d{2}\s*[AP]M)` of pattern 4
matches, the permissive body `(\d{1,2}:\d{2}(?:\s*[AP]M)?)` of pattern 2
matches identically, provided the continuation cannot resume at a digit. -/
theorem tm_mono (u : List Char) (caps : List (List Char)) (K : Cont)
    (res : List (List Char))
    (hK : ∀ ch t c, digitC ch = true → K (ch :: t) c = none)
    (h : reMatch tm4RE u caps K = some res) :
    reMatch tm2RE u caps K = some res := by
  have happ : ∀ ch t c, digitC ch = true → reMatch apmRE (ch :: t) c K = none :=
    fun ch t c hd => apm_reject_digit t c K hd
  have hopt : ∀ ch t c, digitC ch = true → reMatch (.opt apmRE) (ch :: t) c K = none := by
    intro ch t c hd
    rw [reMatch_opt, happ ch t c hd, hK ch t c hd]
    rfl
  rw [tm4RE, timeBaseRE] at h
  rw [tm2RE, timeBaseRE]
  rw [reMatch_seq_rep_det _ _ _ _ _ _ _ (slash_reject _ K)] at h
  split_ifs at h with hc1
  · cases hd1 : u.drop (runLen digitC u) with
    | nil => rw [hd1, reMatch_seq_lit_nil] at h; cases h
    | cons c1 t1 =>
      rw [hd1, reMatch_seq_lit] at h
      split_ifs at h with hcc
      · rw [reMatch_seq_rep_det _ _ _ _ _ _ _ happ] at h
        split_ifs at h with hc2
        · rw [reMatch_seq_rep_det _ _ _ _ _ _ _ (slash_reject _ K), if_pos hc1, hd1,
            reMatch_seq_lit, if_pos hcc,
            reMatch_seq_rep_det _ _ _ _ _ _ _ hopt, if_pos hc2,
            reMatch_opt, h]
          rfl

/-- If the date body with a two-digit year matches, the date body with a
2–4 digit year matches with the same consumption, for a possibly larger
continuation. -/
theorem dmy_mono2 (l : List Char) (caps : List (List Char)) (K Kb : Cont)
    (res : List (List Char))
    (hKd : ∀ ch t c, digitC ch = true → K (ch :: t) c = none)
    (hKbd : ∀ ch t c, digitC ch = true → Kb (ch :: t) c = none)
    (hmono : ∀ u c, K u c = some res → Kb u c = some res)
    (h : reMatch (dmyRE 2) l caps K = some res) :
    reMatch (dmyRE 4) l caps Kb = some res := by
  rw [dmyRE] at h
  rw [dmyRE]
  rw [reMatch_seq_rep_det _ _ _ _ _ _ _ (slash_reject' _ K)] at h
  split_ifs at h with hc1
  · cases hd1 : l.drop (runLen digitC l) with
    | nil => rw [hd1, reMatch_seq_lit_nil] at h; cases h
    | cons c1 t1 =>
      rw [hd1, reMatch_seq_lit] at h
      split_ifs at h with hs1
      · rw [reMatch_seq_rep_det _ _ _ _ _ _ _ (slash_reject' _ K)] at h
        split_ifs at h with hc2
        · cases hd2 : t1.drop (runLen digitC t1) with
          | nil => rw [hd2, reMatch_seq_lit_nil] at h; cases h
          | cons c2 t2 =>
            rw [hd2, reMatch_seq_lit] at h
            split_ifs at h with hs2
            · rw [reMatch_rep_det _ _ _ _ _ _ hKd] at h
              split_ifs at h with hc3
              · rw [reMatch_seq_rep_det _ _ _ _ _ _ _ (slash_reject' _ Kb),
                  if_pos hc1, hd1, reMatch_seq_lit, if_pos hs1,
                  reMatch_seq_rep_det _ _ _ _ _ _ _ (slash_reject' _ Kb),
                  if_pos hc2, hd2, reMatch_seq_lit, if_pos hs2,
                  reMatch_rep_det _ _ _ _ _ _ hKbd,
                  if_pos (by omega : 2 ≤ runLen digitC t2 ∧ runLen digitC t2 ≤ 4)]
                exact hmono _ _ h

/-- From the comma on, a match of pattern 4's tail is a match of pattern
2's tail with the same captures. -/
theorem ztail_mono (u : List Char) (cc : List (List Char)) (K0 : Cont)
    (res : List (List Char))
    (h : reMatch (.seq (lit ',') (.seq (.star jsWs) (.seq (.group tm4RE) dashTailRE)))
        u cc K0 = some res) :
    reMatch (.seq (lit ',') (.seq (.star jsWs) (.seq (.group tm2RE) dashTailRE)))
      u cc K0 = some res := by
  have hst4 : ∀ ch t c, jsWs ch = true →
      reMatch (.seq (.group tm4RE) dashTailRE) (ch :: t) c K0 = none := by
    intro ch t c hws
    rw [reMatch_seq, reMatch_group]
    exact timeBase_reject_ws _ t c _ hws
  have hst2 : ∀ ch t c, jsWs ch = true →
      reMatch (.seq (.group tm2RE) dashTailRE) (ch :: t) c K0 = none := by
    intro ch t c hws
    rw [reMatch_seq, reMatch_group]
    exact timeBase_reject_ws _ t c _ hws
  cases u with
  | nil => rw [reMatch_seq_lit_nil] at h; cases h
  | cons c0 t0 =>
    rw [reMatch_seq_lit] at h
    rw [reMatch_seq_lit]
    split_ifs at h with hcm
    rw [if_pos hcm]
    rw [reMatch_seq_star_det _ _ _ _ _ hst4] at h
    rw [reMatch_seq_star_det _ _ _ _ _ hst2]
    rw [reMatch_seq, reMatch_group] at h
    rw [reMatch_seq, reMatch_group]
    refine tm_mono _ cc _ res ?_ h
    intro ch t c hd
    exact dashTail_reject_digit t _ K0 hd

/-- Whenever pattern 3 matches a line, pattern 2 matches it with the same
captured date, time, sender and message. -/
theorem reCap_mono3 {l : List Char} {c : List (List Char)}
    (h : reCaptures pat3 l = some c) : reCaptures pat2 l = some c := by
  rw [reCaptures, pat3, dashRE, reMatch_seq, reMatch_group] at h
  rw [reCaptures, pat2, dashRE, reMatch_seq, reMatch_group]
  refine dmy_mono2 l [] _ _ c ?_ ?_ (fun u cc hh => hh) h
  · intro ch t cc hd
    exact reMatch_seq_cls_none _ _ _ _ (digit_beq_comma hd)
  · intro ch t cc hd
    exact reMatch_seq_cls_none _ _ _ _ (digit_beq_comma hd)

/-- Whenever pattern 4 matches a line, pattern 2 matches it with the same
captured date, time, sender and message. -/
theorem reCap_mono4 {l : List Char} {c : List (List Char)}
    (h : reCaptures pat4 l = some c) : reCaptures pat2 l = some c := by
  rw [reCaptures, pat4, dashRE, reMatch_seq, reMatch_group] at h
  rw [reCaptures, pat2, dashRE, reMatch_seq, reMatch_group]
  refine dmy_mono2 l [] _ _ c ?_ ?_ ?_ h
  · intro ch t cc hd
    exact reMatch_seq_cls_none _ _ _ _ (digit_beq_comma hd)
  · intro ch t cc hd
    exact reMatch_seq_cls_none _ _ _ _ (digit_beq_comma hd)
  · intro u cc hz
    exact ztail_mono u _ _ c hz

/-! ### Capture counting -/

/-- Number of capture groups of a pattern. -/
def groupCount : RE → Nat
  | .cls _ => 0
  | .seq a b => groupCount a + groupCount b
  | .star _ => 0
  | .rep _ _ _ => 0
  | .opt a => groupCount a
  | .group a => groupCount a + 1

/-- No capture group sits under an optional quantifier. -/
def optPlain : RE → Bool
  | .cls _ => true
  | .seq a b => optPlain a && optPlain b
  | .star _ => true
  | .rep _ _ _ => true
  | .opt a => optPlain a && (groupCount a == 0)
  | .group a => optPlain a

/-- A successful match of a pattern whose optionals capture nothing hands
its continuation exactly `groupCount` new captures. -/
theorem reMatch_caps (r : RE) (hr : optPlain r = true) :
    ∀ (s : List Char) (caps : List (List Char)) (k : Cont) (res : List (List Char)),
      reMatch r s caps k = some res →
      ∃ s2 cs, cs.length = groupCount r ∧ k s2 (caps ++ cs) = some res := by
  induction r with
  | cls p =>
    intro s caps k res h
    obtain ⟨c, t, rfl, hc, hk⟩ := reMatch_cls_some h
    exact ⟨t, [], rfl, by simpa using hk⟩
  | seq a b iha ihb =>
    intro s caps k res h
    rw [reMatch_seq] at h
    rw [optPlain, Bool.and_eq_true] at hr
    obtain ⟨s1, cs1, hl1, h1⟩ := iha hr.1 s caps _ res h
    obtain ⟨s2, cs2, hl2, h2⟩ := ihb hr.2 s1 (caps ++ cs1) k res h1
    exact ⟨s2, cs1 ++ cs2, by simp [groupCount, hl1, hl2],
      by simpa [List.append_assoc] using h2⟩
  | star p =>
    intro s caps k res h
    rw [reMatch_star] at h
    obtain ⟨n, _, hk⟩ := List.exists_of_findSome?_eq_some h
    exact ⟨s.drop n, [], rfl, by simpa using hk⟩
  | rep p lo hi =>
    intro s caps k res h
    rw [reMatch_rep] at h
    obtain ⟨n, _, hk⟩ := List.exists_of_findSome?_eq_some h
    exact ⟨s.drop n, [], rfl, by simpa using hk⟩
  | opt a ih =>
    intro s caps k res h
    rw [optPlain, Bool.and_eq_true] at hr
    rw [reMatch_opt] at h
    cases ho : reMatch a s caps k with
    | some v =>
      rw [ho] at h
      have hv : v = res := by simpa using h
      subst hv
      obtain ⟨s2, cs, hlen, hk⟩ := ih hr.1 s caps k v ho
      exact ⟨s2, cs, by rw [hlen, groupCount], hk⟩
    | none =>
      rw [ho] at h
      have hk : k s caps = some res := by simpa using h
      refine ⟨s, [], ?_, by simpa using hk⟩
      have hz : groupCount a = 0 := by simpa using hr.2
      rw [groupCount]
      simp [hz]
  | group a ih =>
    intro s caps k res h
    rw [reMatch_group] at h
    obtain ⟨s2, cs, hlen, hk⟩ := ih hr s caps _ res h
    exact ⟨s2, cs ++ [s.take (s.length - s2.length)],
      by simp [groupCount, hlen], by simpa [List.append_assoc] using hk⟩

/-- A successful anchored match returns exactly `groupCount` captures. -/
theorem reCaptures_len {r : RE} (hr : optPlain r = true) {s : List Char}
    {c : List (List Char)} (h : reCaptures r s = some c) :
    c.length = groupCount r := by
  rw [reCaptures] at h
  obtain ⟨s2, cs, hlen, hk⟩ := reMatch_caps r hr s [] _ c h
  by_cases he : s2.isEmpty
  · rw [if_pos he] at hk
    simp only [List.nil_append, Option.some.injEq] at hk
    rw [hk] at hlen
    exact hlen
  · rw [if_neg he] at hk; cases hk

/-- A successful match of any of the four source patterns captures
exactly the date, time, sender and message fields. -/
theorem patterns_caps_len {p : RE} (hp : p ∈ patterns) {s : List Char}
    {c : List (List Char)} (h : reCaptures p s = some c) : c.length = 4 := by
  have hmem : p = pat1 ∨ p = pat2 ∨ p = pat3 ∨ p = pat4 := by
    simpa [patterns] using hp
  rcases hmem with rfl | rfl | rfl | rfl
  · rw [reCaptures_len (by decide) h]; rfl
  · rw [reCaptures_len (by decide) h]; rfl
  · rw [reCaptures_len (by decide) h]; rfl
  · rw [reCaptures_len (by decide) h]; rfl

/-! ### The four-pattern scanner equals the two-pattern scanner -/

theorem findSome_two_eq_four (line : List Char) :
    [pat1, pat2].findSome? (fun p => reCaptures p line)
      = patterns.findSome? (fun p => reCaptures p line) := by
  rw [patterns]
  cases h1 : reCaptures pat1 line with
  | some c => simp [List.findSome?_cons, h1]
  | none =>
    cases h2 : reCaptures pat2 line with
    | some c => simp [List.findSome?_cons, h1, h2]
    | none =>
      have h3 : reCaptures pat3 line = none := by
        cases h3 : reCaptures pat3 line with
        | none => rfl
        | some c => rw [reCap_mono3 h3] at h2; cases h2
      have h4 : reCaptures pat4 line = none := by
        cases h4 : reCaptures pat4 line with
        | none => rfl
        | some c => rw [reCap_mono4 h4] at h2; cases h2
      simp [List.findSome?_cons, h1, h2, h3, h4]

theorem headerMatchP_two (line : List Char) :
    headerMatchP [pat1, pat2] line = headerMatchP patterns line := by
  rw [headerMatchP, headerMatchP, findSome_two_eq_four]

theorem stepP_two (st : PState) (line : List Char) :
    stepP [pat1, pat2] st line = stepP patterns st line := by
  rw [stepP, stepP, headerMatchP_two]

theorem parseLinesP_two (dv : String → Bool) (lines : List (List Char)) :
    parseLinesP [pat1, pat2] dv lines = parseLinesP patterns dv lines := by
  have hrun : ∀ (ls : List (List Char)) (st : PState),
      ls.foldl (stepP [pat1, pat2]) st = ls.foldl (stepP patterns) st := by
    intro ls
    induction ls with
    | nil => intro st; rfl
    | cons a t ih =>
      intro st
      rw [List.foldl_cons, List.foldl_cons, stepP_two, ih]
  rw [parseLinesP, parseLinesP, runStateP, runStateP, hrun]

/-! ### Blank lines and the line classifier -/

theorem dropWhile_nil_all {p : Char → Bool} :
    ∀ l : List Char, l.dropWhile p = [] → ∀ c ∈ l, p c = true := by
  intro l
  induction l with
  | nil => intro _ c hc; cases hc
  | cons a t ih =>
    intro h c hc
    by_cases ha : p a
    · rw [List.dropWhile_cons, if_pos ha] at h
      rcases List.mem_cons.mp hc with rfl | hc
      · exact ha
      · exact ih h c hc
    · rw [List.dropWhile_cons, if_neg ha] at h
      cases h

theorem dropWhile_all_nil {p : Char → Bool} :
    ∀ l : List Char, (∀ c ∈ l, p c = true) → l.dropWhile p = [] := by
  intro l
  induction l with
  | nil => intro _; rfl
  | cons a t ih =>
    intro h
    rw [List.dropWhile_cons, if_pos (h a (by simp))]
    exact ih (fun c hc => h c (List.mem_cons_of_mem a hc))

/-- `line.trim()` is empty exactly when every character is whitespace. -/
theorem jsTrim_nil_iff (l : List Char) : jsTrim l = [] ↔ ∀ c ∈ l, jsWs c = true := by
  constructor
  · intro h
    have h2 : (l.dropWhile jsWs).reverse.dropWhile jsWs = [] := by
      have := congrArg List.reverse h
      simpa [jsTrim] using this
    have h3 := dropWhile_nil_all _ h2
    cases hd : l.dropWhile jsWs with
    | nil => exact dropWhile_nil_all _ hd
    | cons c t =>
      exfalso
      have hcw : jsWs c = true := h3 c (by simp [hd])
      have hcn : jsWs c = false := by
        have hhd := List.head?_dropWhile_not jsWs l
        rw [hd] at hhd
        simpa using hhd
      rw [hcw] at hcn
      cases hcn
  · intro h
    rw [jsTrim, dropWhile_all_nil l h]
    rfl

theorem runLen_digit_ws_zero {l : List Char} (hws : ∀ c ∈ l, jsWs c = true) :
    runLen digitC l = 0 := by
  cases l with
  | nil => rfl
  | cons c t => exact runLen_cons_neg t (jsWs_not_digit (hws c (by simp)))

/-- A whitespace-only line matches none of the four patterns. -/
theorem reCaptures_ws_none {p : RE} (hp : p ∈ patterns) {l : List Char}
    (hws : ∀ c ∈ l, jsWs c = true) : reCaptures p l = none := by
  have hdash : ∀ (yhi : Nat) (tm : RE), reCaptures (dashRE yhi tm) l = none := by
    intro yhi tm
    rw [reCaptures, dashRE, reMatch_seq, reMatch_group, dmyRE, reMatch_seq]
    exact reMatch_rep_none _ _ _ _ _ _ (by rw [runLen_digit_ws_zero hws]; omega)
  have hmem : p = pat1 ∨ p = pat2 ∨ p = pat3 ∨ p = pat4 := by
    simpa [patterns] using hp
  rcases hmem with rfl | rfl | rfl | rfl
  · rw [reCaptures, pat1]
    cases l with
    | nil => exact reMatch_seq_lit_nil _ _ _ _
    | cons c t =>
      rw [reMatch_seq_lit, if_neg]
      simp [jsWs_beq_lbrack (hws c (by simp))]
  · exact hdash 4 tm2RE
  · exact hdash 2 tm2RE
  · exact hdash 2 tm4RE

theorem matchAny_blank {l : List Char} (h : jsTrim l = []) :
    patterns.findSome? (fun p => reCaptures p l) = none :=
  List.findSome?_eq_none_iff.mpr
    (fun p hp => reCaptures_ws_none hp ((jsTrim_nil_iff l).mp h))

/-- `headerMatch` is absent exactly when no pattern matches: a successful
pattern match always produces the four capture fields. -/
theorem headerMatch_none_iff (line : List Char) :
    headerMatch line = none
      ↔ patterns.findSome? (fun p => reCaptures p line) = none := by
  rw [headerMatch, headerMatchP]
  cases hf : patterns.findSome? (fun p => reCaptures p line) with
  | none => simp
  | some c =>
    obtain ⟨p, hp, hcap⟩ := List.exists_of_findSome?_eq_some hf
    have h4 := patterns_caps_len hp hcap
    rcases c with _ | ⟨a, _ | ⟨b, _ | ⟨d, _ | ⟨e, _ | ⟨x, rest⟩⟩⟩⟩⟩
    · simp at h4
    · simp at h4
    · simp at h4
    · simp at h4
    · simp
    · simp at h4

theorem headerMatch_blank {l : List Char} (h : jsTrim l = []) :
    headerMatch l = none :=
  (headerMatch_none_iff l).mpr (matchAny_blank h)

theorem headerMatch_some_not_blank {line : List Char}
    {x : List Char × List Char × List Char × List Char}
    (hm : headerMatch line = some x) : ¬ jsTrim line = [] := by
  intro hb
  rw [headerMatch_blank hb] at hm
  cases hm

/-! ### Step equations -/

theorem stepP_blank (pats : List RE) (st : PState) {line : List Char}
    (h : jsTrim line = []) : stepP pats st line = st := by
  rw [stepP, if_pos h]

theorem stepP_match (pats : List RE) (st : PState) {line d t sd ms : List Char}
    (hb : ¬ jsTrim line = [])
    (hm : headerMatchP pats line = some (d, t, sd, ms)) :
    stepP pats st line
      = ⟨some (mkMsg d t sd ms), st.msgs ++ st.cur.toList,
          insertPart st.parts (chStr (jsTrim sd))⟩ := by
  rw [stepP, if_neg hb, hm]

theorem stepP_cont (pats : List RE) {line : List Char}
    (hb : ¬ jsTrim line = []) (hm : headerMatchP pats line = none)
    (m : Message) (msgs : List Message) (parts : List String) :
    stepP pats ⟨some m, msgs, parts⟩ line
      = ⟨some (contMsg m line), msgs, parts⟩ := by
  rw [stepP, if_neg hb, hm]

theorem stepP_nomatch_none (pats : List RE) {line : List Char}
    (hb : ¬ jsTrim line = []) (hm : headerMatchP pats line = none)
    (msgs : List Message) (parts : List String) :
    stepP pats ⟨none, msgs, parts⟩ line = ⟨none, msgs, parts⟩ := by
  rw [stepP, if_neg hb, hm]

/-! ### Fold invariants -/

/-- The accumulated `messages` and `participants` never influence the rest
of the scan: the fold result from any start is the result from the empty
accumulators, with `msgs` shifted by the starting accumulator. -/
theorem foldl_step_shift (pats : List RE) :
    ∀ (ls : List (List Char)) (c : Option Message) (a : List Message)
      (p : List String),
      (ls.foldl (stepP pats) ⟨c, a, p⟩).cur
          = (ls.foldl (stepP pats) ⟨c, [], []⟩).cur ∧
        (ls.foldl (stepP pats) ⟨c, a, p⟩).msgs
          = a ++ (ls.foldl (stepP pats) ⟨c, [], []⟩).msgs := by
  intro ls
  induction ls with
  | nil => intro c a p; simp
  | cons l t ih =>
    intro c a p
    rw [List.foldl_cons, List.foldl_cons]
    by_cases hb : jsTrim l = []
    · rw [stepP_blank _ _ hb, stepP_blank _ _ hb]
      exact ih c a p
    · cases hm : headerMatchP pats l with
      | some x =>
        obtain ⟨d, tt, sd, ms⟩ := x
        rw [stepP_match _ _ hb hm, stepP_match _ _ hb hm]
        obtain ⟨ih1, ih2⟩ :=
          ih (some (mkMsg d tt sd ms)) (PState.msgs ⟨c, a, p⟩ ++ c.toList)
            (insertPart p (chStr (jsTrim sd)))
        obtain ⟨ih1b, ih2b⟩ :=
          ih (some (mkMsg d tt sd ms)) (PState.msgs ⟨c, [], []⟩ ++ c.toList)
            (insertPart [] (chStr (jsTrim sd)))
        refine ⟨?_, ?_⟩
        · rw [ih1, ih1b]
        · rw [ih2, ih2b]
          simp
      | none =>
        cases c with
        | some m =>
          rw [stepP_cont _ hb hm, stepP_cont _ hb hm]
          exact ih _ a p
        | none =>
          rw [stepP_nomatch_none _ hb hm, stepP_nomatch_none _ hb hm]
          exact ih none a p

/-- Unfolding `parseLinesP` when no message was emitted. -/
theorem parseLinesP_emitted_nil (pats : List RE) (dv : String → Bool)
    (lines : List (List Char)) (h : emitted (runStateP pats lines) = []) :
    parseLinesP pats dv lines = none := by
  unfold parseLinesP
  rw [h]

/-- Unfolding `parseLinesP` when at least one message was emitted. -/
theorem parseLinesP_emitted_cons (pats : List RE) (dv : String → Bool)
    (lines : List (List Char)) (m0 : Message) (rest : List Message)
    (h : emitted (runStateP pats lines) = m0 :: rest) :
    parseLinesP pats dv lines = some
      { groupName := "Zero to One"
        messages := m0 :: rest
        participants :=
          List.insertionSort (fun a b => strLe a b = true) (runStateP pats lines).parts
        messageCount := (m0 :: rest).length
        dateRange :=
          { start :=
              if 0 < ((m0 :: rest).filter (fun m => dv m.date)).length then m0.date
              else "N/A"
            «end» :=
              if 0 < ((m0 :: rest).filter (fun m => dv m.date)).length then
                (lastD rest m0).date
              else "N/A" } } := by
  unfold parseLinesP
  rw [h]

/-- Lines that neither blank-skip nor match leave the empty scanner state
untouched. -/
theorem foldl_noMatch (pats : List RE) :
    ∀ ls : List (List Char), (∀ l ∈ ls, headerMatchP pats l = none) →
    ∀ (a : List Message) (p : List String),
      ls.foldl (stepP pats) ⟨none, a, p⟩ = ⟨none, a, p⟩ := by
  intro ls
  induction ls with
  | nil => intro _ a p; rfl
  | cons l t ih =>
    intro h a p
    rw [List.foldl_cons]
    by_cases hb : jsTrim l = []
    · rw [stepP_blank _ _ hb]
      exact ih (fun x hx => h x (List.mem_cons_of_mem l hx)) a p
    · rw [stepP_nomatch_none _ hb (h l (by simp)) a p]
      exact ih (fun x hx => h x (List.mem_cons_of_mem l hx)) a p

/-- Once a message is in progress or emitted, the scan keeps at least one
message. -/
theorem foldl_live :
    ∀ (ls : List (List Char)) (st : PState),
      (st.cur ≠ none ∨ st.msgs ≠ []) →
      ((ls.foldl (stepP patterns) st).cur ≠ none
        ∨ (ls.foldl (stepP patterns) st).msgs ≠ []) := by
  intro ls
  induction ls with
  | nil => intro st h; exact h
  | cons l t ih =>
    intro st hlive
    rw [List.foldl_cons]
    apply ih
    by_cases hb : jsTrim l = []
    · rwa [stepP_blank _ _ hb]
    · cases hm : headerMatch l with
      | some y =>
        obtain ⟨d, tt, sd, ms⟩ := y
        rw [stepP_match patterns st hb hm]
        left; simp
      | none =>
        obtain ⟨c, a, p⟩ := st
        cases c with
        | some m =>
          rw [stepP_cont patterns hb hm]
          left; simp
        | none =>
          rw [stepP_nomatch_none patterns hb hm]
          exact hlive

/-- A line matching some pattern forces a nonempty emitted sequence. -/
theorem exists_match_live :
    ∀ (ls : List (List Char)) (st : PState),
      (∃ l ∈ ls, headerMatch l ≠ none) →
      ((ls.foldl (stepP patterns) st).cur ≠ none
        ∨ (ls.foldl (stepP patterns) st).msgs ≠ []) := by
  intro ls
  induction ls with
  | nil =>
    intro st h
    obtain ⟨l, hl, _⟩ := h
    cases hl
  | cons l t ih =>
    intro st h
    rw [List.foldl_cons]
    by_cases hm : headerMatch l = none
    · obtain ⟨x, hx, hxm⟩ := h
      rcases List.mem_cons.mp hx with rfl | hx
      · exact absurd hm hxm
      · exact ih _ ⟨x, hx, hxm⟩
    · cases hmm : headerMatch l with
      | none => exact absurd hmm hm
      | some y =>
        obtain ⟨d, tt, sd, ms⟩ := y
        have hb := headerMatch_some_not_blank hmm
        rw [stepP_match patterns st hb hmm]
        apply foldl_live
        left; simp

/-- The parse is absent exactly when no line matches any pattern. -/
theorem parseLinesP_none_iff (dv : String → Bool) (lines : List (List Char)) :
    parseLinesP patterns dv lines = none
      ↔ ∀ l ∈ lines, patterns.findSome? (fun p => reCaptures p l) = none := by
  constructor
  · intro h l hl
    by_contra hne
    have hm : headerMatch l ≠ none := fun h0 => hne ((headerMatch_none_iff l).mp h0)
    have hlive := exists_match_live lines ⟨none, [], []⟩ ⟨l, hl, hm⟩
    cases he : emitted (runStateP patterns lines) with
    | nil =>
      rw [emitted] at he
      rcases hlive with hc | hmsg
      · exact hc (by
          have := List.append_eq_nil.mp he
          cases hcur : (runStateP patterns lines).cur with
          | none => exact hcur
          | some m =>
            exfalso
            have := this.2
            rw [hcur] at this
            cases this)
      · exact hmsg (List.append_eq_nil.mp he).1
    | cons m0 rest =>
      rw [parseLinesP_emitted_cons patterns dv lines m0 rest he] at h
      cases h
  · intro hall
    have hfold :=
      foldl_noMatch patterns lines
        (fun l hl => (headerMatch_none_iff l).mpr (hall l hl)) [] []
    apply parseLinesP_emitted_nil
    rw [runStateP, hfold]
    rfl

/-! ### Blank-line and leading-junk invariance -/

/-- `parseLinesP` depends on the lines only through the scan state. -/
theorem parseLinesP_congr (pats : List RE) (dv : String → Bool)
    {l1 l2 : List (List Char)} (h : runStateP pats l1 = runStateP pats l2) :
    parseLinesP pats dv l1 = parseLinesP pats dv l2 := by
  unfold parseLinesP
  rw [h]

/-- Inserting a whitespace-only line anywhere leaves the scan unchanged. -/
theorem runStateP_blank_insert (pats : List RE) (pre post : List (List Char))
    {b : List Char} (h : jsTrim b = []) :
    runStateP pats (pre ++ b :: post) = runStateP pats (pre ++ post) := by
  rw [runStateP, runStateP, List.foldl_append, List.foldl_append, List.foldl_cons,
    stepP_blank _ _ h]

/-- Unmatched leading lines leave the scan where it started. -/
theorem runStateP_junk (pats : List RE) (pre post : List (List Char))
    (h : ∀ l ∈ pre, headerMatchP pats l = none) :
    runStateP pats (pre ++ post) = runStateP pats post := by
  rw [runStateP, runStateP, List.foldl_append, foldl_noMatch pats pre h]

/-! ### Last message -/

theorem getLast?_eq_lastD (m0 : Message) (rest : List Message) :
    (m0 :: rest).getLast? = some (lastD rest m0) := by
  induction rest generalizing m0 with
  | nil => rfl
  | cons b bs ih => rw [List.getLast?_cons_cons, ih b, lastD]

/-! ### Continuation accumulation (multi-line bodies) -/

/-- The emitted message sequence of a line list. -/
def runMessages (lines : List (List Char)) : List Message :=
  emitted (runStateP patterns lines)

/-- Join continuation lines onto a body with newline separators, in order. -/
def joinNl (s : String) (ls : List (List Char)) : String :=
  ls.foldl (fun a l => a ++ "\n" ++ chStr l) s

/-- Non-blank, non-matching lines only extend the in-progress message. -/
theorem foldl_conts (pats : List RE) :
    ∀ conts : List (List Char),
      (∀ c ∈ conts, ¬jsTrim c = [] ∧ headerMatchP pats c = none) →
      ∀ (m : Message) (msgs : List Message) (parts : List String),
        conts.foldl (stepP pats) ⟨some m, msgs, parts⟩
          = ⟨some (conts.foldl contMsg m), msgs, parts⟩ := by
  intro conts
  induction conts with
  | nil => intro _ m msgs parts; rfl
  | cons c t ih =>
    intro h m msgs parts
    obtain ⟨hb, hm⟩ := h c (by simp)
    rw [List.foldl_cons, stepP_cont pats hb hm, List.foldl_cons,
      ih (fun x hx => h x (List.mem_cons_of_mem c hx))]

theorem contMsg_foldl_message (conts : List (List Char)) :
    ∀ m : Message, (conts.foldl contMsg m).message = joinNl m.message conts := by
  induction conts with
  | nil => intro m; rfl
  | cons c t ih =>
    intro m
    rw [List.foldl_cons, ih (contMsg m c)]
    rfl

theorem contMsg_foldl_fields (conts : List (List Char)) :
    ∀ m : Message,
      (conts.foldl contMsg m).sender = m.sender ∧
      (conts.foldl contMsg m).date = m.date ∧
      (conts.foldl contMsg m).time = m.time ∧
      (conts.foldl contMsg m).timestamp = m.timestamp := by
  induction conts with
  | nil => intro m; exact ⟨rfl, rfl, rfl, rfl⟩
  | cons c t ih =>
    intro m
    rw [List.foldl_cons]
    exact ih (contMsg m c)

/-- Emitted messages from a shifted accumulator. -/
theorem emitted_foldl_shift (pats : List RE) (ls : List (List Char))
    (c : Option Message) (a : List Message) (p : List String) :
    emitted (ls.foldl (stepP pats) ⟨c, a, p⟩)
      = a ++ emitted (ls.foldl (stepP pats) ⟨c, [], []⟩) := by
  obtain ⟨h1, h2⟩ := foldl_step_shift pats ls c a p
  rw [emitted, emitted, h1, h2, List.append_assoc]

/-- A header line, its continuation block, and the rest: the block becomes
one message in front, and the rest parses independently. -/
theorem runMessages_block {h : List Char} {d t sd ms : List Char}
    (conts rest : List (List Char))
    (hm : headerMatch h = some (d, t, sd, ms))
    (hc : ∀ c ∈ conts, ¬jsTrim c = [] ∧ headerMatch c = none)
    (hrest : rest = [] ∨ ∃ r1 rs f, rest = r1 :: rs ∧ headerMatch r1 = some f) :
    runMessages (h :: (conts ++ rest))
      = conts.foldl contMsg (mkMsg d t sd ms) :: runMessages rest := by
  have hb := headerMatch_some_not_blank hm
  rw [runMessages, runStateP, List.foldl_cons, stepP_match patterns _ hb hm,
    List.foldl_append]
  rw [show (PState.msgs ⟨none, [], []⟩ ++ (PState.cur ⟨none, [], []⟩).toList) = ([] : List Message) from rfl]
  rw [foldl_conts patterns conts hc]
  rcases hrest with rfl | ⟨r1, rs, f, rfl, hr1⟩
  · rfl
  · obtain ⟨d2, t2, sd2, ms2⟩ := f
    have hb2 := headerMatch_some_not_blank hr1
    rw [List.foldl_cons, stepP_match patterns _ hb2 hr1]
    rw [runMessages, runStateP, List.foldl_cons, stepP_match patterns _ hb2 hr1]
    rw [emitted_foldl_shift patterns rs, emitted_foldl_shift patterns rs]
    simp
    rw [emitted_foldl_shift patterns rs (some (mkMsg d2 t2 sd2 ms2)) []
        (insertPart [] (chStr (jsTrim sd2)))]
    simp

/-! ### Participants: insertion-order set and lexicographic sort -/

/-- Replaying `Set.prototype.add` over a sender list. -/
def partsOf (ss : List String) : List String := ss.foldl insertPart []

theorem partsOf_append_one (xs : List String) (s : String) :
    partsOf (xs ++ [s]) = insertPart (partsOf xs) s := by
  rw [partsOf, List.foldl_append]
  rfl

theorem mem_insertPart (p : List String) (s x : String) :
    x ∈ insertPart p s ↔ x ∈ p ∨ x = s := by
  rw [insertPart]
  split_ifs with hs
  · constructor
    · exact fun h => Or.inl h
    · rintro (h | rfl)
      · exact h
      · exact hs
  · simp [List.mem_append]

theorem insertPart_nodup (p : List String) (s : String) (h : p.Nodup) :
    (insertPart p s).Nodup := by
  rw [insertPart]
  split_ifs with hs
  · exact h
  · rw [List.nodup_append]
    refine ⟨h, by simp, ?_⟩
    intro a ha has
    rw [List.mem_singleton] at has
    subst has
    exact hs ha

theorem foldl_insertPart_nodup :
    ∀ (ss : List String) (p : List String), p.Nodup → (ss.foldl insertPart p).Nodup := by
  intro ss
  induction ss with
  | nil => intro p h; exact h
  | cons s t ih => intro p h; exact ih _ (insertPart_nodup p s h)

theorem mem_foldl_insertPart :
    ∀ (ss : List String) (p : List String) (x : String),
      x ∈ ss.foldl insertPart p ↔ x ∈ p ∨ x ∈ ss := by
  intro ss
  induction ss with
  | nil => intro p x; simp
  | cons s t ih =>
    intro p x
    rw [List.foldl_cons, ih, mem_insertPart]
    constructor
    · rintro ((h | rfl) | h)
      · exact Or.inl h
      · exact Or.inr (by simp)
      · exact Or.inr (List.mem_cons_of_mem s h)
    · rintro (h | h)
      · exact Or.inl (Or.inl h)
      · rcases List.mem_cons.mp h with rfl | h
        · exact Or.inl (Or.inr rfl)
        · exact Or.inr h

theorem partsOf_nodup (ss : List String) : (partsOf ss).Nodup :=
  foldl_insertPart_nodup ss [] List.nodup_nil

theorem mem_partsOf (ss : List String) (x : String) : x ∈ partsOf ss ↔ x ∈ ss := by
  rw [partsOf, mem_foldl_insertPart]
  simp

/-- During the scan, the participant set is exactly the deduplicated
sender list of the messages emitted so far (current message included). -/
theorem foldl_parts (pats : List RE) :
    ∀ (ls : List (List Char)) (st : PState),
      st.parts = partsOf ((emitted st).map Message.sender) →
      (ls.foldl (stepP pats) st).parts
        = partsOf ((emitted (ls.foldl (stepP pats) st)).map Message.sender) := by
  intro ls
  induction ls with
  | nil => intro st h; exact h
  | cons l t ih =>
    intro st h
    rw [List.foldl_cons]
    apply ih
    by_cases hb : jsTrim l = []
    · rwa [stepP_blank _ _ hb]
    · cases hm : headerMatchP pats l with
      | some y =>
        obtain ⟨d, tt, sd, ms⟩ := y
        rw [stepP_match pats st hb hm]
        have he : emitted ⟨some (mkMsg d tt sd ms), st.msgs ++ st.cur.toList,
            insertPart st.parts (chStr (jsTrim sd))⟩
              = (emitted st) ++ [mkMsg d tt sd ms] := rfl
        rw [he, List.map_append, List.map_cons, List.map_nil, partsOf_append_one, ← h]
        rfl
      | none =>
        obtain ⟨c, a, p⟩ := st
        cases c with
        | some m =>
          rw [stepP_cont pats hb hm]
          rw [show emitted ⟨some (contMsg m l), a, p⟩ = a ++ [contMsg m l] from rfl]
          rw [show emitted ⟨some m, a, p⟩ = a ++ [m] from rfl] at h
          rw [List.map_append] at h ⊢
          exact h
        | none =>
          rw [stepP_nomatch_none pats hb hm]
          exact h

/-- Every emitted sender is a whitespace-trimmed string. -/
theorem emitted_sender_form (pats : List RE) :
    ∀ (ls : List (List Char)) (st : PState),
      (∀ m ∈ emitted st, ∃ sd, m.sender = chStr (jsTrim sd)) →
      ∀ m ∈ emitted (ls.foldl (stepP pats) st), ∃ sd, m.sender = chStr (jsTrim sd) := by
  intro ls
  induction ls with
  | nil => intro st h; exact h
  | cons l t ih =>
    intro st h
    rw [List.foldl_cons]
    apply ih
    by_cases hb : jsTrim l = []
    · rwa [stepP_blank _ _ hb]
    · cases hm : headerMatchP pats l with
      | some y =>
        obtain ⟨d, tt, sd, ms⟩ := y
        rw [stepP_match pats st hb hm]
        intro m hmem
        rw [show emitted ⟨some (mkMsg d tt sd ms), st.msgs ++ st.cur.toList,
          insertPart st.parts (chStr (jsTrim sd))⟩
            = (st.msgs ++ st.cur.toList) ++ [mkMsg d tt sd ms] from rfl] at hmem
        rcases List.mem_append.mp hmem with hmem | hmem
        · exact h m hmem
        · rw [List.mem_singleton] at hmem
          subst hmem
          exact ⟨sd, rfl⟩
      | none =>
        obtain ⟨c, a, p⟩ := st
        cases c with
        | some m0 =>
          rw [stepP_cont pats hb hm]
          intro m hmem
          rw [show emitted ⟨some (contMsg m0 l), a, p⟩ = a ++ [contMsg m0 l] from rfl]
            at hmem
          rcases List.mem_append.mp hmem with hmem | hmem
          · exact h m (by simp [emitted, hmem])
          · rw [List.mem_singleton] at hmem
            subst hmem
            obtain ⟨sd, hsd⟩ := h m0 (by simp [emitted])
            exact ⟨sd, hsd⟩
        | none =>
          rw [stepP_nomatch_none pats hb hm]
          exact h

/-! ### The lexicographic order used by the output sort -/

theorem leLex_total : ∀ x y : List Nat, leLex x y = true ∨ leLex y x = true := by
  intro x
  induction x with
  | nil => intro y; left; rfl
  | cons a as ih =>
    intro y
    cases y with
    | nil => right; rfl
    | cons b bs =>
      rw [leLex, leLex]
      rcases Nat.lt_trichotomy a b with h | h | h
      · left; rw [if_pos h]
      · subst h
        rw [if_neg (by omega : ¬a < a), if_neg (by omega : ¬a < a),
          if_neg (by omega : ¬a < a), if_neg (by omega : ¬a < a)]
        exact ih bs
      · right; rw [if_pos h]

theorem leLex_trans :
    ∀ x y z : List Nat, leLex x y = true → leLex y z = true → leLex x z = true := by
  intro x
  induction x with
  | nil => intro y z _ _; rfl
  | cons a as ih =>
    intro y z hxy hyz
    cases y with
    | nil => rw [leLex] at hxy; cases hxy
    | cons b bs =>
      cases z with
      | nil => rw [leLex] at hyz; cases hyz
      | cons c cs =>
        rw [leLex] at hxy hyz ⊢
        by_cases hab : a < b
        · by_cases hbc : b < c
          · rw [if_pos (by omega)]
          · rw [if_neg hbc] at hyz
            by_cases hcb : c < b
            · rw [if_pos hcb] at hyz; cases hyz
            · rw [if_pos (by omega)]
        · rw [if_neg hab] at hxy
          by_cases hba : b < a
          · rw [if_pos hba] at hxy; cases hxy
          · rw [if_neg hba] at hxy
            have hab2 : a = b := by omega
            subst hab2
            by_cases hac : a < c
            · rw [if_pos hac]
            · rw [if_neg hac] at hyz ⊢
              by_cases hca : c < a
              · rw [if_pos hca] at hyz; cases hyz
              · rw [if_neg hca] at hyz
                rw [if_neg hca]
                exact ih bs cs hxy hyz

instance : IsTotal String (fun a b => strLe a b = true) :=
  ⟨fun a b => leLex_total (strUnits a) (strUnits b)⟩

instance : IsTrans String (fun a b => strLe a b = true) :=
  ⟨fun a b c h1 h2 => leLex_trans _ _ _ h1 h2⟩

/-! ### Line-indexed scan (order preservation) -/

/-- Enumerate lines with their physical line numbers, starting at `n`. -/
def enumF : Nat → List (List Char) → List (Nat × List Char)
  | _, [] => []
  | n, a :: as => (n, a) :: enumF (n + 1) as

/-- Scanner state instrumented with the header line number of each
message. -/
structure IState where
  cur : Option (Nat × Message)
  msgs : List (Nat × Message)
deriving DecidableEq

/-- The instrumented loop body: identical branching to `stepP patterns`,
additionally recording the header line number of each started message. -/
def stepIdx (st : IState) : Nat × List Char → IState
  | (i, line) =>
    if jsTrim line = [] then st
    else
      match headerMatch line with
      | some (d, t, sd, ms) =>
        ⟨some (i, mkMsg d t sd ms), st.msgs ++ st.cur.toList⟩
      | none =>
        match st.cur with
        | some (j, m) => ⟨some (j, contMsg m line), st.msgs⟩
        | none => st

/-- The instrumented scan. -/
def runIdx (lines : List (List Char)) : IState :=
  (enumF 0 lines).foldl stepIdx ⟨none, []⟩

/-- Emitted (line number, message) pairs. -/
def emittedIdx (st : IState) : List (Nat × Message) := st.msgs ++ st.cur.toList

/-- The header line numbers of the emitted messages, in emission order. -/
def idxList (st : IState) : List Nat := (emittedIdx st).map Prod.fst

/-- `q` records a message whose header line number points at a line that
matched, with the fields the match produced. -/
def headerAt (lines : List (List Char)) (q : Nat × Message) : Prop :=
  ∃ l2 d t sd ms, lines[q.1]? = some l2 ∧ headerMatch l2 = some (d, t, sd, ms) ∧
    q.2.date = chStr d ∧ q.2.time = chStr t ∧ q.2.sender = chStr (jsTrim sd)

theorem stepIdx_blank (st : IState) {i : Nat} {line : List Char}
    (h : jsTrim line = []) : stepIdx st (i, line) = st := by
  rw [stepIdx, if_pos h]

theorem stepIdx_match (st : IState) {i : Nat} {line d t sd ms : List Char}
    (hb : ¬ jsTrim line = []) (hm : headerMatch line = some (d, t, sd, ms)) :
    stepIdx st (i, line) = ⟨some (i, mkMsg d t sd ms), st.msgs ++ st.cur.toList⟩ := by
  rw [stepIdx, if_neg hb, hm]

theorem stepIdx_cont {line : List Char} (hb : ¬ jsTrim line = [])
    (hm : headerMatch line = none) (i j : Nat) (m : Message)
    (msgs : List (Nat × Message)) :
    stepIdx ⟨some (j, m), msgs⟩ (i, line) = ⟨some (j, contMsg m line), msgs⟩ := by
  rw [stepIdx, if_neg hb, hm]

theorem stepIdx_nomatch {line : List Char} (hb : ¬ jsTrim line = [])
    (hm : headerMatch line = none) (i : Nat) (msgs : List (Nat × Message)) :
    stepIdx ⟨none, msgs⟩ (i, line) = ⟨none, msgs⟩ := by
  rw [stepIdx, if_neg hb, hm]

theorem toList_map_snd (ic : Option (Nat × Message)) :
    (ic.map Prod.snd).toList = ic.toList.map Prod.snd := by
  cases ic <;> rfl

/-- Erasing the recorded line numbers recovers the plain scan. -/
theorem foldl_idx_corr :
    ∀ (ls : List (List Char)) (n : Nat) (ic : Option (Nat × Message))
      (im : List (Nat × Message)) (p : List String),
      ((enumF n ls).foldl stepIdx ⟨ic, im⟩).cur.map Prod.snd
          = (ls.foldl (stepP patterns)
              ⟨ic.map Prod.snd, im.map Prod.snd, p⟩).cur ∧
        ((enumF n ls).foldl stepIdx ⟨ic, im⟩).msgs.map Prod.snd
          = (ls.foldl (stepP patterns)
              ⟨ic.map Prod.snd, im.map Prod.snd, p⟩).msgs := by
  intro ls
  induction ls with
  | nil => intro n ic im p; exact ⟨rfl, rfl⟩
  | cons l t ih =>
    intro n ic im p
    rw [enumF, List.foldl_cons, List.foldl_cons]
    by_cases hb : jsTrim l = []
    · rw [stepIdx_blank _ hb, stepP_blank _ _ hb]
      exact ih (n + 1) ic im p
    · cases hm : headerMatch l with
      | some y =>
        obtain ⟨d, tt, sd, ms⟩ := y
        rw [stepIdx_match _ hb hm, stepP_match patterns _ hb hm]
        have hmap : (im ++ ic.toList).map Prod.snd
            = im.map Prod.snd ++ (ic.map Prod.snd).toList := by
          rw [List.map_append, toList_map_snd]
        have hh := ih (n + 1) (some (n, mkMsg d tt sd ms)) (im ++ ic.toList)
          (insertPart p (chStr (jsTrim sd)))
        rw [hmap] at hh
        exact hh
      | none =>
        cases ic with
        | some jm =>
          obtain ⟨j, m⟩ := jm
          rw [stepIdx_cont hb hm,
            show Option.map Prod.snd (some (j, m)) = some m from rfl,
            stepP_cont patterns hb hm]
          exact ih (n + 1) (some (j, contMsg m l)) im p
        | none =>
          rw [stepIdx_nomatch hb hm,
            show Option.map Prod.snd (none : Option (Nat × Message)) = none from rfl,
            stepP_nomatch_none patterns hb hm]
          exact ih (n + 1) none im p

theorem idxList_cur (j : Nat) (x : Message) (msgs : List (Nat × Message)) :
    idxList ⟨some (j, x), msgs⟩ = msgs.map Prod.fst ++ [j] := by
  rw [idxList, emittedIdx]
  simp

/-- Recorded header line numbers stay strictly increasing and below the
cursor. -/
theorem foldl_idx_mono :
    ∀ (ls : List (List Char)) (n : Nat) (st : IState),
      List.Pairwise (· < ·) (idxList st) → (∀ i ∈ idxList st, i < n) →
      List.Pairwise (· < ·) (idxList ((enumF n ls).foldl stepIdx st)) ∧
        ∀ i ∈ idxList ((enumF n ls).foldl stepIdx st), i < n + ls.length := by
  intro ls
  induction ls with
  | nil =>
    intro n st hp hbnd
    exact ⟨hp, fun i hi => by have := hbnd i hi; simp; omega⟩
  | cons l t ih =>
    intro n st hp hbnd
    rw [enumF, List.foldl_cons]
    have hnext : ∀ st2 : IState,
        List.Pairwise (· < ·) (idxList st2) → (∀ i ∈ idxList st2, i < n + 1) →
        List.Pairwise (· < ·) (idxList ((enumF (n + 1) t).foldl stepIdx st2)) ∧
          ∀ i ∈ idxList ((enumF (n + 1) t).foldl stepIdx st2),
            i < n + (l :: t).length := by
      intro st2 h1 h2
      obtain ⟨g1, g2⟩ := ih (n + 1) st2 h1 h2
      exact ⟨g1, fun i hi => by have := g2 i hi; simp at this ⊢; omega⟩
    by_cases hb : jsTrim l = []
    · rw [stepIdx_blank _ hb]
      exact hnext st hp (fun i hi => by have := hbnd i hi; omega)
    · cases hm : headerMatch l with
      | some y =>
        obtain ⟨d, tt, sd, ms⟩ := y
        rw [stepIdx_match _ hb hm]
        apply hnext
        · rw [idxList_cur]
          rw [List.pairwise_append]
          refine ⟨hp, by simp, ?_⟩
          intro a ha b hb2
          rw [List.mem_singleton] at hb2
          subst hb2
          exact hbnd a ha
        · intro i hi
          rw [idxList_cur] at hi
          rcases List.mem_append.mp hi with hi | hi
          · have := hbnd i hi
            omega
          · rw [List.mem_singleton] at hi
            omega
      | none =>
        obtain ⟨c, msgs⟩ := st
        cases c with
        | some jm =>
          obtain ⟨j, m⟩ := jm
          rw [stepIdx_cont hb hm]
          apply hnext
          · rw [idxList_cur]
            rw [idxList_cur] at hp
            exact hp
          · intro i hi
            rw [idxList_cur] at hi
            rw [show idxList ⟨some (j, m), msgs⟩ = msgs.map Prod.fst ++ [j] from
              idxList_cur j m msgs] at hbnd
            have := hbnd i hi
            omega
        | none =>
          rw [stepIdx_nomatch hb hm]
          exact hnext ⟨none, msgs⟩ hp (fun i hi => by have := hbnd i hi; omega)

/-- Every recorded pair points back at the header line that started it. -/
theorem foldl_idx_src (lines : List (List Char)) :
    ∀ (ls : List (List Char)) (n : Nat) (st : IState),
      ls = lines.drop n →
      (∀ q ∈ emittedIdx st, headerAt lines q) →
      ∀ q ∈ emittedIdx ((enumF n ls).foldl stepIdx st), headerAt lines q := by
  intro ls
  induction ls with
  | nil => intro n st _ h; exact h
  | cons l t ih =>
    intro n st hdrop h
    have hline : lines[n]? = some l := by
      have h0 : (lines.drop n)[0]? = some l := by rw [← hdrop]; simp
      rwa [List.getElem?_drop, Nat.add_zero] at h0
    have htail : t = lines.drop (n + 1) := by
      have h2 : List.drop 1 (List.drop n lines) = List.drop (n + 1) lines :=
        List.drop_drop 1 n lines
      rw [← hdrop] at h2
      exact h2
    rw [enumF, List.foldl_cons]
    by_cases hb : jsTrim l = []
    · rw [stepIdx_blank _ hb]
      exact ih (n + 1) st htail h
    · cases hm : headerMatch l with
      | some y =>
        obtain ⟨d, tt, sd, ms⟩ := y
        rw [stepIdx_match _ hb hm]
        apply ih (n + 1) _ htail
        intro q hq
        rw [show emittedIdx ⟨some (n, mkMsg d tt sd ms), st.msgs ++ st.cur.toList⟩
          = emittedIdx st ++ [(n, mkMsg d tt sd ms)] from rfl] at hq
        rcases List.mem_append.mp hq with hq | hq
        · exact h q hq
        · rw [List.mem_singleton] at hq
          subst hq
          exact ⟨l, d, tt, sd, ms, hline, hm, rfl, rfl, rfl⟩
      | none =>
        obtain ⟨c, msgs⟩ := st
        cases c with
        | some jm =>
          obtain ⟨j, m⟩ := jm
          rw [stepIdx_cont hb hm]
          apply ih (n + 1) _ htail
          intro q hq
          rw [show emittedIdx ⟨some (j, contMsg m l), msgs⟩
            = msgs ++ [(j, contMsg m l)] from rfl] at hq
          rcases List.mem_append.mp hq with hq | hq
          · exact h q (by rw [show emittedIdx ⟨some (j, m), msgs⟩
              = msgs ++ [(j, m)] from rfl]; exact List.mem_append_left _ hq)
          · rw [List.mem_singleton] at hq
            subst hq
            obtain ⟨l2, d, tt, sd, ms, hl2, hm2, hd, ht, hs⟩ :=
              h (j, m) (by rw [show emittedIdx ⟨some (j, m), msgs⟩
                = msgs ++ [(j, m)] from rfl]; simp)
            exact ⟨l2, d, tt, sd, ms, hl2, hm2, hd, ht, hs⟩
        | none =>
          rw [stepIdx_nomatch hb hm]
          exact ih (n + 1) _ htail h

/-! ### Claim theorems -/

/-- C1: `parse` returns the absent result exactly when zero lines of the
input match any header pattern — in particular for the empty string and
for input with no recognizable header line — and otherwise returns a
populated `ParsedTranscript` value with a nonempty message sequence. -/
theorem claim1_parse_none_iff_no_header (text : String) :
    (parseChat text = none
      ↔ ∀ l ∈ splitNl text.data,
          patterns.findSome? (fun p => reCaptures p l) = none) ∧
      ∀ r : ParsedData, parseChat text = some r → r.messages ≠ [] := by
  constructor
  · exact parseLinesP_none_iff jsDateValid (splitNl text.data)
  · intro r hr
    rw [parseChat] at hr
    cases he : emitted (runStateP patterns (splitNl text.data)) with
    | nil => rw [parseLinesP_emitted_nil _ _ _ he] at hr; cases hr
    | cons m0 rest =>
      rw [parseLinesP_emitted_cons _ _ _ _ _ he] at hr
      injection hr with hr
      rw [← hr]
      simp

/-- C2: when no emitted message's date token passes the validity check,
both `dateRange` fields are the `"N/A"` sentinel; when at least one
passes, they are the raw date tokens of the first and last emitted
message, whatever the other messages' tokens do.  Proved for every
validity predicate `dv`, hence for the runtime's `Date` check. -/
theorem claim2_dateRange (dv : String → Bool) (lines : List (List Char))
    (r : ParsedData) (hp : parseLinesP patterns dv lines = some r) :
    ((∀ m ∈ r.messages, dv m.date = false) →
        r.dateRange.start = "N/A" ∧ r.dateRange.«end» = "N/A") ∧
      ((∃ m ∈ r.messages, dv m.date = true) →
        r.messages.head?.map Message.date = some r.dateRange.start ∧
          r.messages.getLast?.map Message.date = some r.dateRange.«end») := by
  cases he : emitted (runStateP patterns lines) with
  | nil => rw [parseLinesP_emitted_nil _ _ _ he] at hp; cases hp
  | cons m0 rest =>
    rw [parseLinesP_emitted_cons _ _ _ _ _ he] at hp
    injection hp with hp
    subst hp
    dsimp only
    constructor
    · intro hno
      have hfil : (m0 :: rest).filter (fun m => dv m.date) = [] := by
        rw [List.filter_eq_nil_iff]
        intro m hm
        simp [hno m hm]
      rw [hfil]
      exact ⟨rfl, rfl⟩
    · rintro ⟨m, hm, hdv⟩
      have hmem : m ∈ (m0 :: rest).filter (fun m => dv m.date) :=
        List.mem_filter.mpr ⟨hm, hdv⟩
      have hpos : 0 < ((m0 :: rest).filter (fun m => dv m.date)).length :=
        List.length_pos.mpr (List.ne_nil_of_mem hmem)
      rw [if_pos hpos, if_pos hpos, getLast?_eq_lastD]
      exact ⟨rfl, rfl⟩

/-- C3: a header line followed by N non-blank, non-matching lines and then
either a new header line or end of input emits one message whose body is
the header's trimmed message text joined with the N full lines by
newlines, in order; with no following header the in-progress message is
still emitted, as the last message. -/
theorem claim3_continuation (hline : List Char) (conts rest : List (List Char))
    (d t sd ms : List Char)
    (hm : headerMatch hline = some (d, t, sd, ms))
    (hc : ∀ c ∈ conts, ¬jsTrim c = [] ∧ headerMatch c = none)
    (hrest : rest = [] ∨ ∃ r1 rs f, rest = r1 :: rs ∧ headerMatch r1 = some f) :
    ∃ mfin : Message,
      runMessages (hline :: (conts ++ rest)) = mfin :: runMessages rest ∧
        mfin.message = joinNl (chStr (jsTrim ms)) conts ∧
        mfin.sender = chStr (jsTrim sd) ∧ mfin.date = chStr d ∧
        mfin.time = chStr t := by
  refine ⟨conts.foldl contMsg (mkMsg d t sd ms),
    runMessages_block conts rest hm hc hrest, ?_, ?_, ?_, ?_⟩
  · rw [contMsg_foldl_message]
    rfl
  · exact (contMsg_foldl_fields conts _).1
  · exact (contMsg_foldl_fields conts _).2.1
  · exact (contMsg_foldl_fields conts _).2.2.1

/-- C4: the participants field is the duplicate-free set of the emitted
messages' senders — each a whitespace-trimmed string — output as a
lexicographically sorted list. -/
theorem claim4_participants (dv : String → Bool) (lines : List (List Char))
    (r : ParsedData) (hp : parseLinesP patterns dv lines = some r) :
    r.participants.Nodup ∧
      (∀ s, s ∈ r.participants ↔ ∃ m ∈ r.messages, m.sender = s) ∧
      List.Sorted (fun a b => strLe a b = true) r.participants ∧
      ∀ m ∈ r.messages, ∃ sd, m.sender = chStr (jsTrim sd) := by
  have hparts : (runStateP patterns lines).parts
      = partsOf ((emitted (runStateP patterns lines)).map Message.sender) :=
    foldl_parts patterns lines ⟨none, [], []⟩ rfl
  cases he : emitted (runStateP patterns lines) with
  | nil => rw [parseLinesP_emitted_nil _ _ _ he] at hp; cases hp
  | cons m0 rest =>
    rw [parseLinesP_emitted_cons _ _ _ _ _ he] at hp
    injection hp with hp
    subst hp
    dsimp only
    rw [he] at hparts
    have hperm := List.perm_insertionSort (fun a b => strLe a b = true)
      (runStateP patterns lines).parts
    refine ⟨?_, ?_, ?_, ?_⟩
    · rw [hperm.nodup_iff, hparts]
      exact partsOf_nodup _
    · intro s
      rw [hperm.mem_iff, hparts, mem_partsOf]
      constructor
      · intro hs
        obtain ⟨m, hm, hsm⟩ := List.mem_map.mp hs
        exact ⟨m, hm, hsm⟩
      · rintro ⟨m, hm, rfl⟩
        exact List.mem_map.mpr ⟨m, hm, rfl⟩
    · exact List.sorted_insertionSort _ _
    · intro m hm
      refine emitted_sender_form patterns lines ⟨none, [], []⟩ ?_ m ?_
      · intro m2 hm2
        cases hm2
      · rw [show emitted (lines.foldl (stepP patterns) ⟨none, [], []⟩)
          = emitted (runStateP patterns lines) from rfl, he]
        exact hm

/-- C5: messages are emitted in strictly increasing order of the line
number of their header line, each recorded message points back at a line
that matched with its fields, and `messageCount` is the length of the
message sequence. -/
theorem claim5_order (dv : String → Bool) (lines : List (List Char))
    (r : ParsedData) (hp : parseLinesP patterns dv lines = some r) :
    r.messageCount = r.messages.length ∧
      (emittedIdx (runIdx lines)).map Prod.snd = r.messages ∧
      List.Pairwise (· < ·) (idxList (runIdx lines)) ∧
      ∀ q ∈ emittedIdx (runIdx lines), headerAt lines q := by
  obtain ⟨hcorr1, hcorr2⟩ := foldl_idx_corr lines 0 none [] []
  cases he : emitted (runStateP patterns lines) with
  | nil => rw [parseLinesP_emitted_nil _ _ _ he] at hp; cases hp
  | cons m0 rest =>
    rw [parseLinesP_emitted_cons _ _ _ _ _ he] at hp
    injection hp with hp
    subst hp
    dsimp only
    refine ⟨rfl, ?_, ?_, ?_⟩
    · rw [show emittedIdx (runIdx lines)
        = (runIdx lines).msgs ++ (runIdx lines).cur.toList from rfl]
      rw [List.map_append, ← toList_map_snd, runIdx, hcorr1, hcorr2]
      exact he
    · exact (foldl_idx_mono lines 0 ⟨none, []⟩ (by simp [idxList, emittedIdx])
        (by simp [idxList, emittedIdx])).1
    · exact foldl_idx_src lines lines 0 ⟨none, []⟩ (List.drop_zero lines).symm
        (fun q hq => by cases hq)

/-- C7: a whitespace-only line never starts a message, never extends the
in-progress message and never flushes it — the loop state is untouched —
so inserting a blank line anywhere leaves the whole parse unchanged:
a blank line inside a multi-line body is absent from the emitted body
while later continuation lines still accumulate. -/
theorem claim7_blank_lines (b : List Char) (hb : jsTrim b = []) :
    (∀ st : PState, step st b = st) ∧
      ∀ (dv : String → Bool) (pre post : List (List Char)),
        parseLinesP patterns dv (pre ++ b :: post)
          = parseLinesP patterns dv (pre ++ post) := by
  constructor
  · intro st
    exact stepP_blank patterns st hb
  · intro dv pre post
    exact parseLinesP_congr patterns dv (runStateP_blank_insert patterns pre post hb)

/-- C8: non-blank lines before the first header line match no pattern and
are silently dropped — they appear in no message body and have no effect
on the parse result. -/
theorem claim8_leading_junk (pre post : List (List Char))
    (hj : ∀ l ∈ pre, headerMatch l = none) (dv : String → Bool) :
    parseLinesP patterns dv (pre ++ post) = parseLinesP patterns dv post :=
  parseLinesP_congr patterns dv (runStateP_junk patterns pre post hj)

/-- C9: whenever pattern 3 or pattern 4 matches a line, pattern 2 matches
it with identical captures, so the scanner built from patterns 1 and 2
alone produces exactly the same results as the four-pattern scanner. -/
theorem claim9_pattern_subsumption :
    (∀ (l : List Char) (c : List (List Char)),
        (reCaptures pat3 l = some c → reCaptures pat2 l = some c) ∧
          (reCaptures pat4 l = some c → reCaptures pat2 l = some c)) ∧
      ∀ (dv : String → Bool) (lines : List (List Char)),
        parseLinesP [pat1, pat2] dv lines = parseLinesP patterns dv lines :=
  ⟨fun _ _ => ⟨fun h => reCap_mono3 h, fun h => reCap_mono4 h⟩, parseLinesP_two⟩

/-- C10: every successful parse carries the constant `groupName`
`"Zero to One"`, independent of the input text. -/
theorem claim10_groupName (text : String) (r : ParsedData)
    (hp : parseChat text = some r) : r.groupName = "Zero to One" := by
  rw [parseChat] at hp
  cases he : emitted (runStateP patterns (splitNl text.data)) with
  | nil => rw [parseLinesP_emitted_nil _ _ _ he] at hp; cases hp
  | cons m0 rest =>
    rw [parseLinesP_emitted_cons _ _ _ _ _ he] at hp
    injection hp with hp
    rw [← hp]

/-- C6: the spec's example transcript parses to exactly two messages with
Alice's joined two-line body and Bob's single-line body, participants
`["Alice", "Bob"]`, message count 2, and date range `12/5/23`–`12/5/23`. -/
theorem claim6_example :
    parseChat "[12/5/23, 9:04:01 PM] Alice: Hello there\nhow are you?\n[12/5/23, 9:05:00 PM] Bob: I\x27m fine"
      = some
        { groupName := "Zero to One"
          messages :=
            [{ timestamp := "12/5/23, 9:04:01 PM", sender := "Alice",
               message := "Hello there\nhow are you?", date := "12/5/23",
               time := "9:04:01 PM" },
             { timestamp := "12/5/23, 9:05:00 PM", sender := "Bob",
               message := "I\x27m fine", date := "12/5/23", time := "9:05:00 PM" }]
          participants := ["Alice", "Bob"]
          messageCount := 2
          dateRange := { start := "12/5/23", «end» := "12/5/23" } } := by
  decide

/-! ### Witnesses -/

theorem claim1_witness :
    parseChat "" = none ∧
      ∃ r : ParsedData, parseChat "1/1/23, 9:00 - A: x" = some r ∧ r.messages ≠ [] := by
  have h1 : parseChat "1/1/23, 9:00 - A: x"
      = some
        { groupName := "Zero to One"
          messages :=
            [{ timestamp := "1/1/23, 9:00", sender := "A", message := "x",
               date := "1/1/23", time := "9:00" }]
          participants := ["A"]
          messageCount := 1
          dateRange := { start := "1/1/23", «end» := "1/1/23" } } := by decide
  exact ⟨(claim1_parse_none_iff_no_header "").1.mpr (by decide), _, h1,
    (claim1_parse_none_iff_no_header "1/1/23, 9:00 - A: x").2 _ h1⟩

theorem claim2_witness :
    ∃ r : ParsedData,
      parseLinesP patterns (fun _ => false) ["1/1/23, 9:00 - A: x".data] = some r ∧
        r.dateRange.start = "N/A" ∧ r.dateRange.«end» = "N/A" := by
  have h : parseLinesP patterns (fun _ => false) ["1/1/23, 9:00 - A: x".data]
      = some
        { groupName := "Zero to One"
          messages :=
            [{ timestamp := "1/1/23, 9:00", sender := "A", message := "x",
               date := "1/1/23", time := "9:00" }]
          participants := ["A"]
          messageCount := 1
          dateRange := { start := "N/A", «end» := "N/A" } } := by decide
  obtain ⟨h1, h2⟩ := (claim2_dateRange _ _ _ h).1 (fun m _ => rfl)
  exact ⟨_, h, h1, h2⟩

theorem claim3_witness :
    ∃ mfin : Message,
      runMessages ("[1/2/23, 4:05] A: x".data :: (["cont".data] ++ []))
          = mfin :: runMessages [] ∧
        mfin.message = joinNl (chStr (jsTrim "x".data)) ["cont".data] ∧
        mfin.sender = chStr (jsTrim "A".data) ∧ mfin.date = chStr "1/2/23".data ∧
        mfin.time = chStr "4:05".data :=
  claim3_continuation "[1/2/23, 4:05] A: x".data ["cont".data] []
    "1/2/23".data "4:05".data "A".data "x".data (by decide) (by decide) (Or.inl rfl)

theorem claim4_witness :
    ∃ r : ParsedData,
      parseLinesP patterns jsDateValid
          ["1/1/23, 9:00 - B: x".data, "1/1/23, 9:01 - A: y".data] = some r ∧
        r.participants.Nodup ∧ r.participants = ["A", "B"] ∧
        List.Sorted (fun a b => strLe a b = true) r.participants := by
  have h : parseLinesP patterns jsDateValid
      ["1/1/23, 9:00 - B: x".data, "1/1/23, 9:01 - A: y".data]
      = some
        { groupName := "Zero to One"
          messages :=
            [{ timestamp := "1/1/23, 9:00", sender := "B", message := "x",
               date := "1/1/23", time := "9:00" },
             { timestamp := "1/1/23, 9:01", sender := "A", message := "y",
               date := "1/1/23", time := "9:01" }]
          participants := ["A", "B"]
          messageCount := 2
          dateRange := { start := "1/1/23", «end» := "1/1/23" } } := by decide
  obtain ⟨h1, _, h3, _⟩ := claim4_participants jsDateValid _ _ h
  exact ⟨_, h, h1, rfl, h3⟩

theorem claim5_witness :
    ∃ r : ParsedData, parseChat "1/1/23, 9:00 - A: x" = some r ∧
      r.messageCount = r.messages.length ∧
      (emittedIdx (runIdx (splitNl "1/1/23, 9:00 - A: x".data))).map Prod.snd
        = r.messages ∧
      List.Pairwise (· < ·) (idxList (runIdx (splitNl "1/1/23, 9:00 - A: x".data))) := by
  have h : parseChat "1/1/23, 9:00 - A: x"
      = some
        { groupName := "Zero to One"
          messages :=
            [{ timestamp := "1/1/23, 9:00", sender := "A", message := "x",
               date := "1/1/23", time := "9:00" }]
          participants := ["A"]
          messageCount := 1
          dateRange := { start := "1/1/23", «end» := "1/1/23" } } := by decide
  obtain ⟨h1, h2, h3, _⟩ :=
    claim5_order jsDateValid (splitNl "1/1/23, 9:00 - A: x".data) _ h
  exact ⟨_, h, h1, h2, h3⟩

theorem claim7_witness :
    step ⟨none, [], []⟩ " ".data = ⟨none, [], []⟩ ∧
      parseLinesP patterns jsDateValid
          (["1/1/23, 9:00 - A: x".data] ++ " ".data :: ["cont".data])
        = parseLinesP patterns jsDateValid
            (["1/1/23, 9:00 - A: x".data] ++ ["cont".data]) :=
  ⟨(claim7_blank_lines " ".data (by decide)).1 _,
    (claim7_blank_lines " ".data (by decide)).2 jsDateValid _ _⟩

theorem claim8_witness :
    parseLinesP patterns jsDateValid
        (["junk".data] ++ ["1/1/23, 9:00 - A: x".data])
      = parseLinesP patterns jsDateValid ["1/1/23, 9:00 - A: x".data] :=
  claim8_leading_junk ["junk".data] _ (by decide) jsDateValid

theorem claim9_witness :
    reCaptures pat2 "1/2/34, 5:06 - A: hi".data
        = some ["1/2/34".data, "5:06".data, "A".data, "hi".data] ∧
      reCaptures pat2 "1/2/34, 5:06 PM - A: hi".data
        = some ["1/2/34".data, "5:06 PM".data, "A".data, "hi".data] ∧
      parseLinesP [pat1, pat2] jsDateValid ["1/2/34, 5:06 - A: hi".data]
        = parseLinesP patterns jsDateValid ["1/2/34, 5:06 - A: hi".data] :=
  ⟨(claim9_pattern_subsumption.1 _ _).1 (by decide),
    (claim9_pattern_subsumption.1 _ _).2 (by decide),
    claim9_pattern_subsumption.2 jsDateValid _⟩

theorem claim10_witness :
    ∃ r : ParsedData, parseChat "1/1/23, 9:00 - A: x" = some r ∧
      r.groupName = "Zero to One" := by
  have h : parseChat "1/1/23, 9:00 - A: x"
      = some
        { groupName := "Zero to One"
          messages :=
            [{ timestamp := "1/1/23, 9:00", sender := "A", message := "x",
               date := "1/1/23", time := "9:00" }]
          participants := ["A"]
          messageCount := 1
          dateRange := { start := "1/1/23", «end» := "1/1/23" } } := by decide
  exact ⟨_, h, claim10_groupName _ _ h⟩

end WA
